import Mathlib

/-!
Verification development for the `releaser` directory-mirroring utility.

The program mirrors a source server volume into a destination server
volume, protecting a configured keep-list of destination-relative paths.
We embed the core of `main.go` — `isKeepFile`, `removeFiles`,
`copyFiles` and the `copy` orchestrator, together with the keep-list
construction performed in `init` — as executable Lean definitions over
a model of slash-separated paths and filesystem trees, and prove the
specified properties about them.
-/

namespace Releaser

/-- Split a character list at every occurrence of `sep`; the worker
carries the current segment reversed. Splitting the empty list yields
one empty segment, as Go `strings.Split` does. -/
def splitOnCharAux (sep : Char) : List Char → List Char → List (List Char)
  | [], acc => [acc.reverse]
  | c :: rest, acc =>
    if c = sep then acc.reverse :: splitOnCharAux sep rest []
    else splitOnCharAux sep rest (c :: acc)

/-- Split a string at every occurrence of the character `sep`
(Go `strings.Split` with a one-character separator). -/
def splitOnChar (sep : Char) (s : String) : List String :=
  (splitOnCharAux sep s.data []).map String.mk

/-- Whether the path is rooted (Go `filepath.IsAbs` on Unix). -/
def isAbsPath (s : String) : Bool :=
  match s.data with
  | c :: _ => c = '/'
  | [] => false

/-- ASCII whitespace, the cases of Go `strings.TrimSpace` that matter
for path specifiers. -/
def isSpaceChar (c : Char) : Bool :=
  c = ' ' ∨ c = '\t' ∨ c = '\n' ∨ c = '\r'

/-- Go `strings.TrimSpace`: drop leading and trailing whitespace. -/
def trimString (s : String) : String :=
  ⟨((s.data.dropWhile isSpaceChar).reverse.dropWhile isSpaceChar).reverse⟩

/-- Join path components with `/` separators. -/
def joinComps : List String → String
  | [] => ""
  | [c] => c
  | c :: rest => c ++ "/" ++ joinComps rest

/-- One step of Go `path/filepath.Clean` over a path component, operating
on a stack of already-accepted components held in reverse order.
Empty components and `.` are dropped; `..` pops a previous component
when possible, is dropped at the root of a rooted path and kept at the
front of a relative path. -/
def cleanStep (rooted : Bool) (stack : List String) (c : String) : List String :=
  if c = "" ∨ c = "." then stack
  else if c = ".." then
    match stack with
    | [] => if rooted then [] else [".."]
    | t :: rest => if t = ".." then ".." :: t :: rest else rest
  else c :: stack

/-- The cleaned component list of a path, given whether it is rooted. -/
def cleanComponents (rooted : Bool) (cs : List String) : List String :=
  (cs.foldl (cleanStep rooted) []).reverse

/-- Go `filepath.Clean` on a slash-separated (Unix) path. -/
def cleanPath (p : String) : String :=
  let rooted := isAbsPath p
  let comps := cleanComponents rooted (splitOnChar '/' p)
  if rooted then "/" ++ joinComps comps
  else if comps.isEmpty then "." else joinComps comps

/-- Go `filepath.Join` restricted to two arguments: empty elements are
skipped and the result is cleaned. -/
def joinPath (a b : String) : String :=
  if a = "" then (if b = "" then "" else cleanPath b)
  else if b = "" then cleanPath a
  else cleanPath (a ++ "/" ++ b)

/-- Go `filepath.Abs`: an absolute path is cleaned; a relative path is
joined onto the working directory. `cwd = none` models a failing
`os.Getwd`, the only error source of `filepath.Abs`. -/
def goAbs (cwd : Option String) (p : String) : Option String :=
  if isAbsPath p then some (cleanPath p)
  else
    match cwd with
    | some c => some (joinPath c p)
    | none => none

/-- The ambient configuration of the program: the working directory as
seen by `filepath.Abs` (`none` when `os.Getwd` fails), the two server
volume roots `srcSrvDir` and `dstSrvDir`, and the `keepFiles` list built
by `init`. -/
structure Env where
  cwd : Option String
  srcDir : String
  dstDir : String
  keepFiles : List String

/-- `isKeepFile` from `main.go`: resolve the candidate with
`filepath.Abs` (failure means not protected), then scan the keep list,
resolving `filepath.Join(dstSrvDir, v)` for each entry (a failing entry
is skipped), returning true on the first exact string match. -/
def isKeepFile (env : Env) (file : String) : Bool :=
  match goAbs env.cwd file with
  | none => false
  | some absFile =>
    env.keepFiles.any fun v =>
      match goAbs env.cwd (joinPath env.dstDir v) with
      | none => false
      | some absV => absFile == absV

/-- The keep-list construction from `init` in `main.go`: split the
`KEEP_FILES` environment variable on commas, drop entries that are
empty before trimming, and append the trimmed form of the rest. -/
def parseKeepFiles (s : String) : List String :=
  (splitOnChar ',' s).filterMap fun v => if v = "" then none else some (trimString v)

/-- A filesystem tree: regular files carry a permission mode and their
byte content; directories carry a mode and a named list of children. -/
inductive FSNode where
  | file (mode : Nat) (content : String)
  | dir (mode : Nat) (entries : List (String × FSNode))

mutual

/-- Structural boolean equality on trees. -/
def FSNode.beq : FSNode → FSNode → Bool
  | .file m c, .file m' c' => m == m' && c == c'
  | .dir m es, .dir m' es' => m == m' && FSNode.beqEntries es es'
  | _, _ => false

/-- Structural boolean equality on entry lists. -/
def FSNode.beqEntries : List (String × FSNode) → List (String × FSNode) → Bool
  | [], [] => true
  | (n, x) :: r, (n', x') :: r' => n == n' && FSNode.beq x x' && FSNode.beqEntries r r'
  | _, _ => false

end

mutual

theorem FSNode.beq_iff : ∀ a b : FSNode, (FSNode.beq a b = true) ↔ a = b
  | .file _ _, .file _ _ => by simp [FSNode.beq]
  | .file _ _, .dir _ _ => by simp [FSNode.beq]
  | .dir _ _, .file _ _ => by simp [FSNode.beq]
  | .dir _ es, .dir _ es' => by
    simp [FSNode.beq, FSNode.beqEntries_iff es es']

theorem FSNode.beqEntries_iff :
    ∀ a b : List (String × FSNode), (FSNode.beqEntries a b = true) ↔ a = b
  | [], [] => by simp [FSNode.beqEntries]
  | [], _ :: _ => by simp [FSNode.beqEntries]
  | _ :: _, [] => by simp [FSNode.beqEntries]
  | (n, x) :: r, (n', x') :: r' => by
    simp [FSNode.beqEntries, FSNode.beq_iff x x', FSNode.beqEntries_iff r r',
      Prod.ext_iff, and_assoc]

end

instance : DecidableEq FSNode := fun a b =>
  decidable_of_iff _ (FSNode.beq_iff a b)

/-- The children of a node (`[]` for a file). -/
def FSNode.entriesOf : FSNode → List (String × FSNode)
  | .file _ _ => []
  | .dir _ es => es

/-- Look up a directory entry by name, as the filesystem does. -/
def findEntry (name : String) : List (String × FSNode) → Option FSNode
  | [] => none
  | (n, x) :: rest => if n = name then some x else findEntry name rest

/-- Replace the first entry called `name`, leaving the rest alone. -/
def setEntry (name : String) (v : FSNode) : List (String × FSNode) → List (String × FSNode)
  | [] => []
  | (n, x) :: rest => if n = name then (n, v) :: rest else (n, x) :: setEntry name v rest

/-- Follow a relative component path down a tree. -/
def lookupPath : FSNode → List String → Option FSNode
  | n, [] => some n
  | .file _ _, _ :: _ => none
  | .dir _ es, name :: p =>
    match findEntry name es with
    | none => none
    | some c => lookupPath c p

/-- Injected environmental failures for the filesystem calls the
program makes: `os.ReadDir`, `os.Remove`, `os.ReadFile`, `os.WriteFile`
and `os.MkdirAll`, each keyed by the path the call receives. -/
structure Faults where
  rdFail : String → Bool
  rmFail : String → Bool
  readFail : String → Bool
  writeFail : String → Bool
  mkdirFail : String → Bool

/-- The fault-free filesystem. -/
def noFaults : Faults :=
  ⟨fun _ => false, fun _ => false, fun _ => false, fun _ => false, fun _ => false⟩

theorem noFaults_rdFail (p : String) : noFaults.rdFail p = false := rfl

theorem noFaults_rmFail (p : String) : noFaults.rmFail p = false := rfl

theorem noFaults_readFail (p : String) : noFaults.readFail p = false := rfl

theorem noFaults_writeFail (p : String) : noFaults.writeFail p = false := rfl

theorem noFaults_mkdirFail (p : String) : noFaults.mkdirFail p = false := rfl

mutual

/-- `removeFiles(dirPath)` from `main.go`, acting on the tree rooted at
`dirPath`. `os.ReadDir` fails on a non-directory or on an injected
fault, which is fatal. Otherwise the children are processed in order.
The result is the tree left behind at `dirPath` together with the
propagated error, if any. -/
def removeFiles (env : Env) (fl : Faults) (dirPath : String) :
    FSNode → FSNode × Option String
  | .file m c => (.file m c, some dirPath)
  | .dir m es =>
    if fl.rdFail dirPath then (.dir m es, some dirPath)
    else
      let r := removeEntries env fl dirPath es
      (.dir m r.1, r.2)

/-- The loop body of `removeFiles`: for each child not protected by
`isKeepFile`, a directory child is recursively emptied first (a
propagated error aborts the loop, leaving later children untouched),
then `os.Remove` is attempted on the child; a `Remove` failure — a
non-empty directory or an injected fault — is swallowed and the child
stays. Protected children are left alone entirely. -/
def removeEntries (env : Env) (fl : Faults) (dirPath : String) :
    List (String × FSNode) → List (String × FSNode) × Option String
  | [] => ([], none)
  | (name, node) :: rest =>
    let fullpath := joinPath dirPath name
    if isKeepFile env fullpath then
      let r := removeEntries env fl dirPath rest
      ((name, node) :: r.1, r.2)
    else
      match node with
      | .file m c =>
        let r := removeEntries env fl dirPath rest
        ((if fl.rmFail fullpath then [(name, FSNode.file m c)] else []) ++ r.1, r.2)
      | .dir m es =>
        let sub := removeFiles env fl fullpath (.dir m es)
        match sub.2 with
        | some e => ((name, sub.1) :: rest, some e)
        | none =>
          let r := removeEntries env fl dirPath rest
          ((match sub.1 with
            | .dir m' [] => if fl.rmFail fullpath then [(name, FSNode.dir m' [])] else []
            | other => [(name, other)]) ++ r.1, r.2)

end

mutual

/-- `copyFiles(srcDirPath, dstDirPath)` from `main.go`, acting on the
source tree rooted at `srcDirPath` and the destination tree rooted at
`dstDirPath`. `os.ReadDir` on the source fails on a non-directory or an
injected fault; copying into a non-directory destination fails at the
first write. The result is the new destination tree and the propagated
error, if any. -/
def copyFiles (env : Env) (fl : Faults) (srcDirPath dstDirPath : String) :
    FSNode → FSNode → FSNode × Option String
  | .file _ _, dstNode => (dstNode, some srcDirPath)
  | .dir _ _, .file fm fc => (.file fm fc, some dstDirPath)
  | .dir _ srcEs, .dir dm des =>
    if fl.rdFail srcDirPath then (.dir dm des, some srcDirPath)
    else
      let r := copyEntries env fl srcDirPath dstDirPath srcEs des
      (.dir dm r.1, r.2)

/-- The loop body of `copyFiles`: each source child whose destination
path is not protected is copied — a directory child via `os.MkdirAll`
(an existing destination directory keeps its mode; an existing file
there is an error) followed by the recursive copy, a file child via
`os.ReadFile` then `os.WriteFile` (an existing destination file keeps
its mode; an existing directory there is an error). Every failure is
fatal and aborts the loop, leaving later children uncopied. Protected
destination paths are skipped entirely. -/
def copyEntries (env : Env) (fl : Faults) (srcDirPath dstDirPath : String) :
    List (String × FSNode) → List (String × FSNode) → List (String × FSNode) × Option String
  | [], des => (des, none)
  | (name, sNode) :: rest, des =>
    let srcFullpath := joinPath srcDirPath name
    let dstFullpath := joinPath dstDirPath name
    if isKeepFile env dstFullpath then
      copyEntries env fl srcDirPath dstDirPath rest des
    else
      match sNode with
      | .dir m es =>
        match findEntry name des with
        | some (.file _ _) => (des, some dstFullpath)
        | some (.dir dm0 des0) =>
          let sub := copyFiles env fl srcFullpath dstFullpath (.dir m es) (.dir dm0 des0)
          match sub.2 with
          | some e => (setEntry name sub.1 des, some e)
          | none => copyEntries env fl srcDirPath dstDirPath rest (setEntry name sub.1 des)
        | none =>
          if fl.mkdirFail dstFullpath then (des, some dstFullpath)
          else
            let sub := copyFiles env fl srcFullpath dstFullpath (.dir m es) (.dir m [])
            match sub.2 with
            | some e => (des ++ [(name, sub.1)], some e)
            | none => copyEntries env fl srcDirPath dstDirPath rest (des ++ [(name, sub.1)])
      | .file m c =>
        if fl.readFail srcFullpath then (des, some srcFullpath)
        else if fl.writeFail dstFullpath then (des, some dstFullpath)
        else
          match findEntry name des with
          | some (.dir _ _) => (des, some dstFullpath)
          | some (.file fm0 _) =>
            copyEntries env fl srcDirPath dstDirPath rest (setEntry name (.file fm0 c) des)
          | none =>
            copyEntries env fl srcDirPath dstDirPath rest (des ++ [(name, .file m c)])

end

/-- The two filesystem locations the program touches: the tree at
`srcSrvDir` and the tree at `dstSrvDir`, each `none` when the path does
not exist. -/
structure World where
  src : Option FSNode
  dst : Option FSNode
deriving DecidableEq

/-- The `copy` orchestrator from `main.go`: fail if the destination
root is missing; when `del` is set, run `removeFiles` on the
destination root and fail on a propagated error; fail if the source
root is missing; run `copyFiles` and report whether it succeeded.
Returns the reported outcome and the resulting world. -/
def copy (env : Env) (fl : Faults) (del : Bool) (w : World) : Bool × World :=
  match w.dst with
  | none => (false, w)
  | some dstTree =>
    let rm := if del then removeFiles env fl env.dstDir dstTree else (dstTree, none)
    match rm.2 with
    | some _ => (false, ⟨w.src, some rm.1⟩)
    | none =>
      match w.src with
      | none => (false, ⟨w.src, some rm.1⟩)
      | some srcTree =>
        let cp := copyFiles env fl env.srcDir env.dstDir srcTree rm.1
        (cp.2.isNone, ⟨w.src, some cp.1⟩)

mutual

/-- Whether a tree holds a keep-list-protected node strictly below
`dirPath`. -/
def shelters (env : Env) (dirPath : String) : FSNode → Bool
  | .file _ _ => false
  | .dir _ es => sheltersList env dirPath es

/-- Whether an entry list at `dirPath` holds a protected entry or an
entry sheltering one. -/
def sheltersList (env : Env) (dirPath : String) : List (String × FSNode) → Bool
  | [] => false
  | (name, node) :: rest =>
    isKeepFile env (joinPath dirPath name) || shelters env (joinPath dirPath name) node ||
      sheltersList env dirPath rest

end

/-- C3: `isKeepFile` returns true exactly when the canonical absolute
form of the candidate path equals, as a string, the canonical absolute
form of `filepath.Join(dstSrvDir, v)` for some keep-list entry `v` —
there are no prefix or glob semantics. -/
theorem isKeepFile_exact_match (env : Env) (file : String) :
    isKeepFile env file = true ↔
      ∃ a, goAbs env.cwd file = some a ∧
        ∃ v ∈ env.keepFiles, goAbs env.cwd (joinPath env.dstDir v) = some a := by
  unfold isKeepFile
  cases hf : goAbs env.cwd file with
  | none => simp
  | some a =>
    simp only [List.any_eq_true, Option.some.injEq]
    constructor
    · rintro ⟨v, hv, h⟩
      cases hv2 : goAbs env.cwd (joinPath env.dstDir v) with
      | none => rw [hv2] at h; simp at h
      | some b =>
        rw [hv2] at h
        simp only [beq_iff_eq] at h
        exact ⟨a, rfl, v, hv, by rw [hv2, h]⟩
    · rintro ⟨a', ha', v, hv, h⟩
      subst ha'
      exact ⟨v, hv, by rw [h]; simp⟩

/-- A descendant of a directory named by a keep-list entry is not
itself protected: exact matching only. -/
example :
    isKeepFile ⟨some "/", "/src", "/dst", ["d"]⟩ "/dst/d" = true ∧
      isKeepFile ⟨some "/", "/src", "/dst", ["d"]⟩ "/dst/d/child" = false := by decide

/-- C6: the matcher fails open. If the candidate's canonicalization
fails, it is not protected; a keep-list entry whose own resolution
fails is skipped, leaving the decision to the remaining entries. -/
theorem isKeepFile_fails_open (env : Env) (file : String) (l1 l2 : List String) (v : String) :
    (goAbs env.cwd file = none → isKeepFile env file = false) ∧
    (goAbs env.cwd (joinPath env.dstDir v) = none →
      isKeepFile { env with keepFiles := l1 ++ v :: l2 } file =
        isKeepFile { env with keepFiles := l1 ++ l2 } file) := by
  constructor
  · intro h
    unfold isKeepFile
    rw [h]
  · intro h
    unfold isKeepFile
    cases hf : goAbs env.cwd file with
    | none => rfl
    | some a =>
      simp only [List.any_append, List.any_cons]
      rw [h]
      simp

/-- C6 witness: a relative candidate with no working directory is not
protected, and an unresolvable entry is skipped. -/
theorem isKeepFile_fails_open_witness :
    isKeepFile ⟨none, "/src", "/dst", ["k"]⟩ "rel" = false ∧
      isKeepFile ⟨none, "/s", "dst", ["a", "v"]⟩ "/f" =
        isKeepFile ⟨none, "/s", "dst", ["a"]⟩ "/f" :=
  ⟨(isKeepFile_fails_open ⟨none, "/src", "/dst", ["k"]⟩ "rel" [] [] "x").1 (by decide),
    (isKeepFile_fails_open ⟨none, "/s", "dst", ["x"]⟩ "/f" ["a"] [] "v").2 (by decide)⟩

/-- C9 counterexample: a whitespace-only `KEEP_FILES` specifier passes
the emptiness test before being trimmed, so the constructed keep list
can contain the empty string. -/
theorem keepFiles_blank_entry_retained :
    "" ∈ parseKeepFiles " " ∧ parseKeepFiles "a, ,b" = ["a", "", "b"] := by decide

/-- C9 amended: every constructed keep-list entry is the trimmed form
of a comma-separated specifier that was non-empty before trimming;
specifiers that are empty before trimming are discarded, but
whitespace-only specifiers survive as empty strings. -/
theorem keepFiles_entries_from_nonblank (s v : String) (h : v ∈ parseKeepFiles s) :
    ∃ raw, raw ∈ splitOnChar ',' s ∧ raw ≠ "" ∧ v = trimString raw := by
  unfold parseKeepFiles at h
  rw [List.mem_filterMap] at h
  obtain ⟨raw, hmem, hraw⟩ := h
  by_cases hne : raw = ""
  · rw [if_pos hne] at hraw
    exact absurd hraw (by simp)
  · rw [if_neg hne] at hraw
    exact ⟨raw, hmem, hne, (Option.some_inj.1 hraw).symm⟩

/-- C9 amended witness. -/
theorem keepFiles_entries_from_nonblank_witness :
    "a" ∈ parseKeepFiles " a ,b" ∧
      ∃ raw, raw ∈ splitOnChar ',' " a ,b" ∧ raw ≠ "" ∧ "a" = trimString raw :=
  ⟨by decide, keepFiles_entries_from_nonblank " a ,b" "a" (by decide)⟩

/-- C4: when the destination root does not exist the mirror fails
immediately: deletion and copy are skipped and the world is untouched. -/
theorem copy_missing_destination_no_mutation (env : Env) (fl : Faults) (del : Bool)
    (s : Option FSNode) :
    copy env fl del ⟨s, none⟩ = (false, ⟨s, none⟩) := rfl

/-- C1: a keep-list-protected destination path is skipped entirely.
In the copy pass the source child is not traversed at all — the loop
continues as if the child were absent, so no descendant is copied even
when the descendant's own path is unprotected — and in the deletion
pass the protected entry is returned verbatim, with no descent into it. -/
theorem protected_skip_total (env : Env) (fl : Faults) (srcD dstD : String) (name : String)
    (node : FSNode) (rest des es : List (String × FSNode))
    (h : isKeepFile env (joinPath dstD name) = true) :
    copyEntries env fl srcD dstD ((name, node) :: rest) des =
        copyEntries env fl srcD dstD rest des ∧
      removeEntries env fl dstD ((name, node) :: es) =
        ((name, node) :: (removeEntries env fl dstD es).1,
          (removeEntries env fl dstD es).2) := by
  cases node with
  | file m c => exact ⟨by simp [copyEntries, h], by simp [removeEntries, h]⟩
  | dir m sub => exact ⟨by simp [copyEntries, h], by simp [removeEntries, h]⟩

/-- C1 witness: with keep list `["k"]`, the entry `k` — a directory
with unprotected content — is skipped whole by both passes. -/
theorem protected_skip_total_witness :
    copyEntries ⟨some "/", "/src", "/dst", ["k"]⟩ noFaults "/src" "/dst"
        [("k", .dir 7 [("x", .file 6 "y")])] [] =
      copyEntries ⟨some "/", "/src", "/dst", ["k"]⟩ noFaults "/src" "/dst" [] [] ∧
    removeEntries ⟨some "/", "/src", "/dst", ["k"]⟩ noFaults "/dst"
        [("k", .dir 7 [("x", .file 6 "y")])] =
      (("k", FSNode.dir 7 [("x", .file 6 "y")]) ::
          (removeEntries ⟨some "/", "/src", "/dst", ["k"]⟩ noFaults "/dst" []).1,
        (removeEntries ⟨some "/", "/src", "/dst", ["k"]⟩ noFaults "/dst" []).2) :=
  protected_skip_total ⟨some "/", "/src", "/dst", ["k"]⟩ noFaults "/src" "/dst" "k"
    (.dir 7 [("x", .file 6 "y")]) [] [] [] (by decide)

/-- Processing one deletion-loop entry is independent of the entries
after it: an aborting error leaves the tail untouched. -/
theorem removeEntries_cons (env : Env) (fl : Faults) (d : String) (x : String × FSNode)
    (rest : List (String × FSNode)) :
    removeEntries env fl d (x :: rest) =
      match removeEntries env fl d [x] with
      | (l, some e) => (l ++ rest, some e)
      | (l, none) => (l ++ (removeEntries env fl d rest).1, (removeEntries env fl d rest).2) := by
  obtain ⟨name, node⟩ := x
  cases node with
  | file m c =>
    by_cases hk : isKeepFile env (joinPath d name)
    · simp [removeEntries, hk]
    · by_cases hr : fl.rmFail (joinPath d name) <;> simp [removeEntries, hk, hr]
  | dir m es =>
    by_cases hk : isKeepFile env (joinPath d name)
    · simp [removeEntries, hk]
    · cases hsub : (removeFiles env fl (joinPath d name) (.dir m es)).2 with
      | some e => simp [removeEntries, hk, hsub]
      | none => simp [removeEntries, hk, hsub]

/-- Processing one copy-loop entry is independent of the entries after
it: an aborting error leaves the tail uncopied, and on success the loop
continues on the updated destination. -/
theorem copyEntries_cons (env : Env) (fl : Faults) (sD dD : String) (x : String × FSNode)
    (rest des : List (String × FSNode)) :
    copyEntries env fl sD dD (x :: rest) des =
      match copyEntries env fl sD dD [x] des with
      | (des', some e) => (des', some e)
      | (des', none) => copyEntries env fl sD dD rest des' := by
  obtain ⟨name, sNode⟩ := x
  cases sNode with
  | file m c =>
    by_cases hk : isKeepFile env (joinPath dD name)
    · simp [copyEntries, hk]
    · by_cases hrf : fl.readFail (joinPath sD name)
      · simp [copyEntries, hk, hrf]
      · by_cases hwf : fl.writeFail (joinPath dD name)
        · simp [copyEntries, hk, hrf, hwf]
        · cases hfe : findEntry name des with
          | none => simp [copyEntries, hk, hrf, hwf, hfe]
          | some v =>
            cases v with
            | file fm0 fc0 => simp [copyEntries, hk, hrf, hwf, hfe]
            | dir dm0 des0 => simp [copyEntries, hk, hrf, hwf, hfe]
  | dir m es =>
    by_cases hk : isKeepFile env (joinPath dD name)
    · simp [copyEntries, hk]
    · cases hfe : findEntry name des with
      | some v =>
        cases v with
        | file fm0 fc0 => simp [copyEntries, hk, hfe]
        | dir dm0 des0 =>
          cases hsub :
              (copyFiles env fl (joinPath sD name) (joinPath dD name)
                (.dir m es) (.dir dm0 des0)).2 with
          | some e => simp [copyEntries, hk, hfe, hsub]
          | none => simp [copyEntries, hk, hfe, hsub]
      | none =>
        by_cases hmk : fl.mkdirFail (joinPath dD name)
        · simp [copyEntries, hk, hfe, hmk]
        · cases hsub :
              (copyFiles env fl (joinPath sD name) (joinPath dD name)
                (.dir m es) (.dir m [])).2 with
          | some e => simp [copyEntries, hk, hfe, hmk, hsub]
          | none => simp [copyEntries, hk, hfe, hmk, hsub]

/-- Without injected `ReadDir` faults, the deletion pass never reports
an error: removal failures alone are never propagated. -/
theorem removeEntries_noListFail (env : Env) (fl : Faults) (hf : ∀ p, fl.rdFail p = false) :
    ∀ (l : List (String × FSNode)) (d : String), (removeEntries env fl d l).2 = none := by
  have key : ∀ (n : Nat) (l : List (String × FSNode)) (d : String), sizeOf l ≤ n →
      (removeEntries env fl d l).2 = none := by
    intro n
    induction n with
    | zero =>
      intro l d hle
      cases l with
      | nil => simp [removeEntries]
      | cons x rest => simp at hle
    | succ n ih =>
      intro l d hle
      cases l with
      | nil => simp [removeEntries]
      | cons x rest =>
        obtain ⟨name, node⟩ := x
        have hrest : sizeOf rest ≤ n := by simp at hle; omega
        cases node with
        | file m c =>
          by_cases hk : isKeepFile env (joinPath d name) <;>
            simp [removeEntries, hk, ih rest d hrest]
        | dir m es =>
          have hes : sizeOf es ≤ n := by simp at hle; omega
          have hsub : (removeFiles env fl (joinPath d name) (.dir m es)).2 = none := by
            simp [removeFiles, hf, ih es (joinPath d name) hes]
          by_cases hk : isKeepFile env (joinPath d name) <;>
            simp [removeEntries, hk, hsub, ih rest d hrest]
  exact fun l d => key (sizeOf l) l d le_rfl

/-- C5: error handling in the deletion pass is asymmetric. A failing
`os.Remove` on an individual entry is swallowed — with no listing
faults the pass reports no error at all, and a failed removal leaves
the entry in place while the loop continues — whereas a failing
directory listing aborts the pass at once and the error surfaces
through the orchestrator as overall failure. -/
theorem delete_error_asymmetry (env : Env) :
    (∀ (fl : Faults) (d : String) (m : Nat) (es : List (String × FSNode)),
      (∀ p, fl.rdFail p = false) → (removeFiles env fl d (.dir m es)).2 = none) ∧
    (∀ (fl : Faults) (d : String) (m : Nat) (es : List (String × FSNode)),
      fl.rdFail d = true → removeFiles env fl d (.dir m es) = (.dir m es, some d)) ∧
    (∀ (fl : Faults) (ss : Option FSNode) (D : FSNode) (e : String),
      (removeFiles env fl env.dstDir D).2 = some e →
      copy env fl true ⟨ss, some D⟩ = (false, ⟨ss, some (removeFiles env fl env.dstDir D).1⟩)) ∧
    (∀ (fl : Faults) (d name c : String) (fm : Nat) (rest : List (String × FSNode)),
      isKeepFile env (joinPath d name) = false → fl.rmFail (joinPath d name) = true →
      removeEntries env fl d ((name, .file fm c) :: rest) =
        ((name, FSNode.file fm c) :: (removeEntries env fl d rest).1,
          (removeEntries env fl d rest).2)) := by
  refine ⟨fun fl d m es h => by simp [removeFiles, h, removeEntries_noListFail env fl h es d],
    fun fl d m es h => by simp [removeFiles, h], fun fl ss D e h => ?_,
    fun fl d name c fm rest hk hr => by simp [removeEntries, hk, hr]⟩
  simp [copy, h]

/-- C5 witness: a removal fault on `/dst/a` is swallowed (no error, the
entry stays, the loop continues), while a listing fault on `/dst` is
fatal and the orchestrator reports failure. -/
theorem delete_error_asymmetry_witness :
    (removeFiles ⟨some "/", "/src", "/dst", []⟩
        ⟨fun _ => false, fun p => p == "/dst/a", fun _ => false, fun _ => false, fun _ => false⟩
        "/dst" (.dir 7 [("a", .file 6 "x"), ("b", .file 6 "y")])).2 = none ∧
    removeFiles ⟨some "/", "/src", "/dst", []⟩
        ⟨fun p => p == "/dst", fun _ => false, fun _ => false, fun _ => false, fun _ => false⟩
        "/dst" (.dir 7 [("a", .file 6 "x")]) =
      (.dir 7 [("a", .file 6 "x")], some "/dst") ∧
    copy ⟨some "/", "/src", "/dst", []⟩
        ⟨fun p => p == "/dst", fun _ => false, fun _ => false, fun _ => false, fun _ => false⟩
        true ⟨none, some (.dir 7 [("a", .file 6 "x")])⟩ =
      (false, ⟨none, some (removeFiles ⟨some "/", "/src", "/dst", []⟩
        ⟨fun p => p == "/dst", fun _ => false, fun _ => false, fun _ => false, fun _ => false⟩
        "/dst" (.dir 7 [("a", .file 6 "x")])).1⟩) ∧
    removeEntries ⟨some "/", "/src", "/dst", []⟩
        ⟨fun _ => false, fun p => p == "/dst/a", fun _ => false, fun _ => false, fun _ => false⟩
        "/dst" [("a", .file 6 "x"), ("b", .file 6 "y")] =
      (("a", FSNode.file 6 "x") ::
          (removeEntries ⟨some "/", "/src", "/dst", []⟩
            ⟨fun _ => false, fun p => p == "/dst/a", fun _ => false, fun _ => false,
              fun _ => false⟩ "/dst" [("b", .file 6 "y")]).1,
        (removeEntries ⟨some "/", "/src", "/dst", []⟩
          ⟨fun _ => false, fun p => p == "/dst/a", fun _ => false, fun _ => false,
            fun _ => false⟩ "/dst" [("b", .file 6 "y")]).2) :=
  ⟨(delete_error_asymmetry ⟨some "/", "/src", "/dst", []⟩).1 _ "/dst" 7 _
      (fun p => by simp),
    (delete_error_asymmetry ⟨some "/", "/src", "/dst", []⟩).2.1 _ "/dst" 7 _ (by decide),
    (delete_error_asymmetry ⟨some "/", "/src", "/dst", []⟩).2.2.1 _ none _ "/dst" (by decide),
    (delete_error_asymmetry ⟨some "/", "/src", "/dst", []⟩).2.2.2 _ "/dst" "a" "x" 6 _
      (by decide) (by decide)⟩

/-- C7: every failure in the copy pass is fatal. A source-listing
fault, a read fault, a write fault or a mkdir fault each abort the pass
at once with an error and leave the destination as it was at that
point; the first error makes the loop ignore every later entry; and a
copy-pass error propagates through the orchestrator as overall failure. -/
theorem copy_pass_errors_fatal (env : Env) :
    (∀ (fl : Faults) (sD dD : String) (m dm : Nat) (es des : List (String × FSNode)),
      fl.rdFail sD = true →
      copyFiles env fl sD dD (.dir m es) (.dir dm des) = (.dir dm des, some sD)) ∧
    (∀ (fl : Faults) (sD dD name c : String) (m : Nat) (rest des : List (String × FSNode)),
      isKeepFile env (joinPath dD name) = false → fl.readFail (joinPath sD name) = true →
      copyEntries env fl sD dD ((name, .file m c) :: rest) des =
        (des, some (joinPath sD name))) ∧
    (∀ (fl : Faults) (sD dD name c : String) (m : Nat) (rest des : List (String × FSNode)),
      isKeepFile env (joinPath dD name) = false → fl.readFail (joinPath sD name) = false →
      fl.writeFail (joinPath dD name) = true →
      copyEntries env fl sD dD ((name, .file m c) :: rest) des =
        (des, some (joinPath dD name))) ∧
    (∀ (fl : Faults) (sD dD name : String) (m : Nat) (es rest des : List (String × FSNode)),
      isKeepFile env (joinPath dD name) = false → findEntry name des = none →
      fl.mkdirFail (joinPath dD name) = true →
      copyEntries env fl sD dD ((name, .dir m es) :: rest) des =
        (des, some (joinPath dD name))) ∧
    (∀ (fl : Faults) (sD dD : String) (x : String × FSNode)
      (rest des : List (String × FSNode)) (e : String),
      (copyEntries env fl sD dD [x] des).2 = some e →
      copyEntries env fl sD dD (x :: rest) des = copyEntries env fl sD dD [x] des) ∧
    (∀ (fl : Faults) (S D : FSNode) (e : String),
      (removeFiles env fl env.dstDir D).2 = none →
      (copyFiles env fl env.srcDir env.dstDir S (removeFiles env fl env.dstDir D).1).2 =
        some e →
      copy env fl true ⟨some S, some D⟩ =
        (false, ⟨some S, some (copyFiles env fl env.srcDir env.dstDir S
          (removeFiles env fl env.dstDir D).1).1⟩)) := by
  refine ⟨fun fl sD dD m dm es des h => by simp [copyFiles, h],
    fun fl sD dD name c m rest des hk hr => by simp [copyEntries, hk, hr],
    fun fl sD dD name c m rest des hk hr hw => by simp [copyEntries, hk, hr, hw],
    fun fl sD dD name m es rest des hk hfe hm => by simp [copyEntries, hk, hfe, hm],
    fun fl sD dD x rest des e h => ?_, fun fl S D e h1 h2 => by simp [copy, h1, h2]⟩
  rw [copyEntries_cons]
  cases hq : copyEntries env fl sD dD [x] des with
  | mk des' oe =>
    rw [hq] at h
    simp only at h
    subst h
    simp

/-- C7 witness: read, write, mkdir and listing faults each abort the
copy pass concretely, the first error hides the tail, and the
orchestrator reports failure. -/
theorem copy_pass_errors_fatal_witness :
    copyFiles ⟨some "/", "/src", "/dst", []⟩
        ⟨fun p => p == "/src", fun _ => false, fun _ => false, fun _ => false, fun _ => false⟩
        "/src" "/dst" (.dir 7 [("a", .file 6 "x")]) (.dir 7 []) =
      (.dir 7 [], some "/src") ∧
    copyEntries ⟨some "/", "/src", "/dst", []⟩
        ⟨fun _ => false, fun _ => false, fun p => p == "/src/a", fun _ => false, fun _ => false⟩
        "/src" "/dst" [("a", .file 6 "x")] [] = ([], some "/src/a") ∧
    copyEntries ⟨some "/", "/src", "/dst", []⟩
        ⟨fun _ => false, fun _ => false, fun _ => false, fun p => p == "/dst/a", fun _ => false⟩
        "/src" "/dst" [("a", .file 6 "x")] [] = ([], some "/dst/a") ∧
    copyEntries ⟨some "/", "/src", "/dst", []⟩
        ⟨fun _ => false, fun _ => false, fun _ => false, fun _ => false, fun p => p == "/dst/d"⟩
        "/src" "/dst" [("d", .dir 7 [])] [] = ([], some "/dst/d") ∧
    copyEntries ⟨some "/", "/src", "/dst", []⟩
        ⟨fun _ => false, fun _ => false, fun p => p == "/src/a", fun _ => false, fun _ => false⟩
        "/src" "/dst" [("a", .file 6 "x"), ("b", .file 6 "y")] [] =
      copyEntries ⟨some "/", "/src", "/dst", []⟩
        ⟨fun _ => false, fun _ => false, fun p => p == "/src/a", fun _ => false, fun _ => false⟩
        "/src" "/dst" [("a", .file 6 "x")] [] ∧
    copy ⟨some "/", "/src", "/dst", []⟩
        ⟨fun _ => false, fun _ => false, fun p => p == "/src/a", fun _ => false, fun _ => false⟩
        true ⟨some (.dir 7 [("a", .file 6 "x")]), some (.dir 7 [])⟩ =
      (false, ⟨some (.dir 7 [("a", .file 6 "x")]),
        some (copyFiles ⟨some "/", "/src", "/dst", []⟩
          ⟨fun _ => false, fun _ => false, fun p => p == "/src/a", fun _ => false,
            fun _ => false⟩ "/src" "/dst" (.dir 7 [("a", .file 6 "x")])
          (removeFiles ⟨some "/", "/src", "/dst", []⟩
            ⟨fun _ => false, fun _ => false, fun p => p == "/src/a", fun _ => false,
              fun _ => false⟩ "/dst" (.dir 7 [])).1).1⟩) :=
  ⟨(copy_pass_errors_fatal ⟨some "/", "/src", "/dst", []⟩).1 _ "/src" "/dst" 7 7 _ _
      (by decide),
    (copy_pass_errors_fatal ⟨some "/", "/src", "/dst", []⟩).2.1 _ "/src" "/dst" "a" "x" 6 [] []
      (by decide) (by decide),
    (copy_pass_errors_fatal ⟨some "/", "/src", "/dst", []⟩).2.2.1 _ "/src" "/dst" "a" "x" 6 [] []
      (by decide) (by decide) (by decide),
    (copy_pass_errors_fatal ⟨some "/", "/src", "/dst", []⟩).2.2.2.1 _ "/src" "/dst" "d" 7 [] [] []
      (by decide) (by decide) (by decide),
    (copy_pass_errors_fatal ⟨some "/", "/src", "/dst", []⟩).2.2.2.2.1 _ "/src" "/dst"
      ("a", .file 6 "x") [("b", .file 6 "y")] [] "/src/a" (by decide),
    (copy_pass_errors_fatal ⟨some "/", "/src", "/dst", []⟩).2.2.2.2.2 _
      (.dir 7 [("a", .file 6 "x")]) (.dir 7 []) "/src/a" (by decide) (by decide)⟩

/-- The absolute path of the position reached by following the
components `p` from the directory `d`, joining one component at a
time as the traversals do. -/
def absAlong (d : String) (p : List String) : String := p.foldl joinPath d

/-- Unfolding `sheltersList` over one entry. -/
theorem sheltersList_cons (env : Env) (dp name : String) (node : FSNode)
    (rest : List (String × FSNode)) :
    sheltersList env dp ((name, node) :: rest) =
      (isKeepFile env (joinPath dp name) || shelters env (joinPath dp name) node ||
        sheltersList env dp rest) := by
  cases node <;> simp [sheltersList]

/-- A member that is protected or shelters a protected node makes its
whole list shelter one. -/
theorem sheltersList_of_mem (env : Env) (dp : String) (l : List (String × FSNode))
    (n : String) (x : FSNode) (hm : (n, x) ∈ l)
    (h : isKeepFile env (joinPath dp n) = true ∨ shelters env (joinPath dp n) x = true) :
    sheltersList env dp l = true := by
  induction l with
  | nil => cases hm
  | cons y rest ih =>
    obtain ⟨ny, xy⟩ := y
    rw [sheltersList_cons]
    rcases List.mem_cons.1 hm with heq | hmem
    · obtain ⟨h1, h2⟩ := Prod.mk.injEq .. ▸ heq
      subst h1; subst h2
      rcases h with h | h <;> simp [h]
    · simp [ih hmem]

/-- With no injected faults, every entry surviving the deletion loop is
either itself keep-list-protected or shelters a protected node below
it. -/
theorem removeEntries_survivors (env : Env) :
    ∀ (l : List (String × FSNode)) (d name : String) (node : FSNode),
      (name, node) ∈ (removeEntries env noFaults d l).1 →
      isKeepFile env (joinPath d name) = true ∨
        shelters env (joinPath d name) node = true := by
  have key : ∀ (k : Nat) (l : List (String × FSNode)), sizeOf l ≤ k →
      ∀ (d name : String) (node : FSNode),
        (name, node) ∈ (removeEntries env noFaults d l).1 →
        isKeepFile env (joinPath d name) = true ∨
          shelters env (joinPath d name) node = true := by
    intro k
    induction k with
    | zero =>
      intro l hle
      cases l with
      | nil => intro d name node hm; simp [removeEntries] at hm
      | cons x rest => simp at hle
    | succ k ih =>
      intro l hle d name node hm
      cases l with
      | nil => simp [removeEntries] at hm
      | cons x rest =>
        obtain ⟨n0, x0⟩ := x
        have hrest : sizeOf rest ≤ k := by simp at hle; omega
        by_cases hk : isKeepFile env (joinPath d n0)
        · cases x0 with
          | file m0 c0 =>
            simp only [removeEntries, hk, if_true] at hm
            rcases List.mem_cons.1 hm with heq | hmem
            · obtain ⟨h1, h2⟩ := Prod.mk.injEq .. ▸ heq
              subst h1; subst h2
              exact Or.inl hk
            · exact ih rest hrest d name node hmem
          | dir m0 es0 =>
            simp only [removeEntries, hk, if_true] at hm
            rcases List.mem_cons.1 hm with heq | hmem
            · obtain ⟨h1, h2⟩ := Prod.mk.injEq .. ▸ heq
              subst h1; subst h2
              exact Or.inl hk
            · exact ih rest hrest d name node hmem
        · cases x0 with
          | file m0 c0 =>
            simp only [removeEntries, hk, Bool.false_eq_true, if_false, noFaults_rmFail,
              List.nil_append, ite_false] at hm
            exact ih rest hrest d name node hm
          | dir m0 es0 =>
            have hes0 : sizeOf es0 ≤ k := by simp at hle; omega
            have hsub : (removeEntries env noFaults (joinPath d n0) es0).2 = none :=
              removeEntries_noListFail env noFaults (fun _ => rfl) es0 (joinPath d n0)
            cases hl0 : (removeEntries env noFaults (joinPath d n0) es0).1 with
            | nil =>
              simp only [removeEntries, hk, Bool.false_eq_true, if_false, removeFiles,
                noFaults_rdFail, noFaults_rmFail, hsub, hl0, List.nil_append,
                ite_false] at hm
              exact ih rest hrest d name node hm
            | cons h0 t0 =>
              simp only [removeEntries, hk, Bool.false_eq_true, if_false, removeFiles,
                noFaults_rdFail, noFaults_rmFail, hsub, hl0, List.singleton_append] at hm
              rcases List.mem_cons.1 hm with heq | hmem
              · obtain ⟨n1, y1⟩ := h0
                obtain ⟨h1, h2⟩ := Prod.mk.injEq .. ▸ heq
                subst h1; subst h2
                refine Or.inr ?_
                have hmem1 : (n1, y1) ∈ (removeEntries env noFaults (joinPath d name) es0).1 := by
                  rw [hl0]; exact List.mem_cons_self _ _
                have hdisj := ih es0 hes0 (joinPath d name) n1 y1 hmem1
                have hsh := sheltersList_of_mem env (joinPath d name) ((n1, y1) :: t0) n1 y1
                  (List.mem_cons_self _ _) hdisj
                simpa [shelters] using hsh
              · exact ih rest hrest d name node hmem
  exact fun l d name node => key (sizeOf l) l le_rfl d name node

/-- C2: the source-existence check runs only after the deletion pass.
With the destination present and the source missing, the mirror reports
failure and the destination is exactly the deletion pass's output — no
copy is attempted — and (fault-free) that output retains only entries
that are keep-list matches or directories sheltering one. -/
theorem missing_source_checked_after_delete (env : Env) (fl : Faults) (D : FSNode) :
    copy env fl true ⟨none, some D⟩ =
      (false, ⟨none, some (removeFiles env fl env.dstDir D).1⟩) ∧
    ∀ (name : String) (node : FSNode),
      (name, node) ∈ ((removeFiles env noFaults env.dstDir D).1).entriesOf →
      isKeepFile env (joinPath env.dstDir name) = true ∨
        shelters env (joinPath env.dstDir name) node = true := by
  constructor
  · cases h : (removeFiles env fl env.dstDir D).2 <;> simp [copy, h]
  · intro name node hm
    cases D with
    | file m c => simp [removeFiles, FSNode.entriesOf] at hm
    | dir m es =>
      simp only [removeFiles, noFaults_rdFail, Bool.false_eq_true, if_false,
        FSNode.entriesOf, ite_false] at hm
      exact removeEntries_survivors env es env.dstDir name node hm

/-- C2 witness: destination exists, source missing — deletion runs,
the mirror fails, and the surviving entry is the protected one. -/
theorem missing_source_checked_after_delete_witness :
    copy ⟨some "/", "/src", "/dst", ["keep.txt"]⟩ noFaults true
        ⟨none, some (.dir 7 [("old", .file 6 "o"), ("keep.txt", .file 6 "k")])⟩ =
      (false, ⟨none, some (removeFiles ⟨some "/", "/src", "/dst", ["keep.txt"]⟩ noFaults
        "/dst" (.dir 7 [("old", .file 6 "o"), ("keep.txt", .file 6 "k")])).1⟩) ∧
    (isKeepFile ⟨some "/", "/src", "/dst", ["keep.txt"]⟩ (joinPath "/dst" "keep.txt") = true ∨
      shelters ⟨some "/", "/src", "/dst", ["keep.txt"]⟩ (joinPath "/dst" "keep.txt")
        (.file 6 "k") = true) :=
  ⟨(missing_source_checked_after_delete ⟨some "/", "/src", "/dst", ["keep.txt"]⟩ noFaults
      (.dir 7 [("old", .file 6 "o"), ("keep.txt", .file 6 "k")])).1,
    (missing_source_checked_after_delete ⟨some "/", "/src", "/dst", ["keep.txt"]⟩ noFaults
      (.dir 7 [("old", .file 6 "o"), ("keep.txt", .file 6 "k")])).2 "keep.txt" (.file 6 "k")
      (by decide)⟩

/-- A node reachable through a keep-list-protected path survives the
deletion loop unchanged, whatever faults occur: the protected entry is
never descended into or removed, and every ancestor directory on the
way still holds it afterwards. -/
theorem removeEntries_keep_lookup (env : Env) (fl : Faults) :
    ∀ (l : List (String × FSNode)) (d name : String) (p : List String) (c node : FSNode),
      findEntry name l = some c → lookupPath c p = some node →
      isKeepFile env (absAlong (joinPath d name) p) = true →
      ∃ c', findEntry name (removeEntries env fl d l).1 = some c' ∧
        lookupPath c' p = some node := by
  have key : ∀ (k : Nat) (l : List (String × FSNode)), sizeOf l ≤ k →
      ∀ (d name : String) (p : List String) (c node : FSNode),
        findEntry name l = some c → lookupPath c p = some node →
        isKeepFile env (absAlong (joinPath d name) p) = true →
        ∃ c', findEntry name (removeEntries env fl d l).1 = some c' ∧
          lookupPath c' p = some node := by
    intro k
    induction k with
    | zero =>
      intro l hle
      cases l with
      | nil => intro d name p c node hfe; simp [findEntry] at hfe
      | cons x rest => simp at hle
    | succ k ih =>
      intro l hle d name p c node hfe hlook hprot
      cases l with
      | nil => simp [findEntry] at hfe
      | cons x rest =>
        obtain ⟨n0, x0⟩ := x
        have hrest : sizeOf rest ≤ k := by simp at hle; omega
        by_cases hn : n0 = name
        · subst hn
          rw [findEntry, if_pos rfl] at hfe
          obtain rfl : x0 = c := Option.some_inj.1 hfe
          by_cases hk : isKeepFile env (joinPath d n0)
          · cases x0 with
            | file fm fc =>
              refine ⟨.file fm fc, ?_, hlook⟩
              simp [removeEntries, hk, findEntry]
            | dir m0 es0 =>
              refine ⟨.dir m0 es0, ?_, hlook⟩
              simp [removeEntries, hk, findEntry]
          · cases x0 with
            | file fm fc =>
              cases p with
              | nil => exact absurd hprot hk
              | cons q p' => simp [lookupPath] at hlook
            | dir m0 es0 =>
              cases p with
              | nil => exact absurd hprot hk
              | cons q p' =>
                rw [lookupPath] at hlook
                cases hfq : findEntry q es0 with
                | none => rw [hfq] at hlook; simp at hlook
                | some c1 =>
                  rw [hfq] at hlook
                  simp only at hlook
                  have hes0 : sizeOf es0 ≤ k := by simp at hle; omega
                  have hprot' :
                      isKeepFile env (absAlong (joinPath (joinPath d n0) q) p') = true := by
                    simpa [absAlong] using hprot
                  by_cases hr : fl.rdFail (joinPath d n0)
                  · refine ⟨.dir m0 es0, ?_, ?_⟩
                    · simp [removeEntries, hk, removeFiles, hr, findEntry]
                    · rw [lookupPath, hfq]; exact hlook
                  · obtain ⟨c1', hf1, hl1⟩ :=
                      ih es0 hes0 (joinPath d n0) q p' c1 node hfq hlook hprot'
                    have hlkL :
                        lookupPath (.dir m0 (removeEntries env fl (joinPath d n0) es0).1)
                          (q :: p') = some node := by
                      rw [lookupPath, hf1]; exact hl1
                    cases hE : (removeEntries env fl (joinPath d n0) es0).2 with
                    | some e =>
                      refine ⟨.dir m0 (removeEntries env fl (joinPath d n0) es0).1, ?_, hlkL⟩
                      simp [removeEntries, hk, removeFiles, hr, hE, findEntry]
                    | none =>
                      cases hL : (removeEntries env fl (joinPath d n0) es0).1 with
                      | nil => rw [hL] at hf1; simp [findEntry] at hf1
                      | cons h0 t0 =>
                        refine ⟨.dir m0 (removeEntries env fl (joinPath d n0) es0).1,
                          ?_, hlkL⟩
                        simp [removeEntries, hk, removeFiles, hr, hE, hL, findEntry]
        · rw [findEntry, if_neg hn] at hfe
          by_cases hk : isKeepFile env (joinPath d n0)
          · obtain ⟨c', h1, h2⟩ := ih rest hrest d name p c node hfe hlook hprot
            refine ⟨c', ?_, h2⟩
            cases x0 with
            | file fm fc => simp [removeEntries, hk, findEntry, hn, h1]
            | dir m0 es0 => simp [removeEntries, hk, findEntry, hn, h1]
          · cases x0 with
            | file fm fc =>
              obtain ⟨c', h1, h2⟩ := ih rest hrest d name p c node hfe hlook hprot
              refine ⟨c', ?_, h2⟩
              by_cases hrm : fl.rmFail (joinPath d n0) <;>
                simp [removeEntries, hk, hrm, findEntry, hn, h1]
            | dir m0 es0 =>
              by_cases hr : fl.rdFail (joinPath d n0)
              · refine ⟨c, ?_, hlook⟩
                simp [removeEntries, hk, removeFiles, hr, findEntry, hn, hfe]
              · cases hE : (removeEntries env fl (joinPath d n0) es0).2 with
                | some e =>
                  refine ⟨c, ?_, hlook⟩
                  simp [removeEntries, hk, removeFiles, hr, hE, findEntry, hn, hfe]
                | none =>
                  obtain ⟨c', h1, h2⟩ := ih rest hrest d name p c node hfe hlook hprot
                  refine ⟨c', ?_, h2⟩
                  cases hL : (removeEntries env fl (joinPath d n0) es0).1 with
                  | nil =>
                    by_cases hrm : fl.rmFail (joinPath d n0) <;>
                      simp [removeEntries, hk, removeFiles, hr, hE, hL, hrm,
                        findEntry, hn, h1]
                  | cons h0 t0 =>
                    simp [removeEntries, hk, removeFiles, hr, hE, hL, findEntry, hn, h1]
  exact fun l => key (sizeOf l) l le_rfl

/-- C10: the deletion pass never removes the destination root itself —
`removeFiles` always hands back a directory with the root's own mode —
and any node whose path is keep-list-protected survives intact together
with all of its ancestor directories: each ancestor still holds it, so
the ancestor's own `os.Remove` fails on a non-empty directory and that
failure is ignored. -/
theorem protected_survive_with_ancestors (env : Env) (fl : Faults) (d : String) (m : Nat)
    (es : List (String × FSNode)) (p : List String) (node : FSNode) :
    (∃ es', (removeFiles env fl d (.dir m es)).1 = .dir m es') ∧
    (p ≠ [] → lookupPath (.dir m es) p = some node →
      isKeepFile env (absAlong d p) = true →
      lookupPath ((removeFiles env fl d (.dir m es)).1) p = some node) := by
  constructor
  · by_cases h : fl.rdFail d <;> simp [removeFiles, h]
  · intro hp hlook hprot
    cases p with
    | nil => exact absurd rfl hp
    | cons q p' =>
      rw [lookupPath] at hlook
      cases hfq : findEntry q es with
      | none => rw [hfq] at hlook; simp at hlook
      | some c =>
        rw [hfq] at hlook
        simp only at hlook
        by_cases hr : fl.rdFail d
        · rw [show (removeFiles env fl d (.dir m es)).1 = .dir m es by
            simp [removeFiles, hr]]
          rw [lookupPath, hfq]; exact hlook
        · have hprot' : isKeepFile env (absAlong (joinPath d q) p') = true := by
            simpa [absAlong] using hprot
          obtain ⟨c', h1, h2⟩ :=
            removeEntries_keep_lookup env fl es d q p' c node hfq hlook hprot'
          rw [show (removeFiles env fl d (.dir m es)).1 =
              .dir m (removeEntries env fl d es).1 by simp [removeFiles, hr]]
          rw [lookupPath, h1]; exact h2

/-- C10 witness: with keep list `["d/x"]` and a destination where `d`
holds the protected `x` and an unprotected `y`, the protected file and
its ancestor directory survive deletion. -/
theorem protected_survive_with_ancestors_witness :
    (∃ es', (removeFiles ⟨some "/", "/src", "/dst", ["d/x"]⟩ noFaults "/dst"
        (.dir 7 [("d", .dir 7 [("x", .file 6 "k"), ("y", .file 6 "z")])])).1 =
      .dir 7 es') ∧
    lookupPath ((removeFiles ⟨some "/", "/src", "/dst", ["d/x"]⟩ noFaults "/dst"
        (.dir 7 [("d", .dir 7 [("x", .file 6 "k"), ("y", .file 6 "z")])])).1)
      ["d", "x"] = some (.file 6 "k") :=
  ⟨(protected_survive_with_ancestors ⟨some "/", "/src", "/dst", ["d/x"]⟩ noFaults "/dst" 7
      [("d", .dir 7 [("x", .file 6 "k"), ("y", .file 6 "z")])] ["d", "x"]
      (.file 6 "k")).1,
    (protected_survive_with_ancestors ⟨some "/", "/src", "/dst", ["d/x"]⟩ noFaults "/dst" 7
      [("d", .dir 7 [("x", .file 6 "k"), ("y", .file 6 "z")])] ["d", "x"]
      (.file 6 "k")).2 (by decide) (by decide) (by decide)⟩

mutual

/-- The fault-free deletion pass on a node (`removeFiles` under
`noFaults`, result tree only). -/
def rmPureN (env : Env) : String → FSNode → FSNode
  | _, .file m c => .file m c
  | full, .dir m es => .dir m (rmPure env full es)

/-- The fault-free deletion pass on an entry list (`removeEntries`
under `noFaults`, result list only): protected entries stay whole,
unprotected files are removed, unprotected directories are emptied
recursively and removed exactly when nothing survived inside. -/
def rmPure (env : Env) : String → List (String × FSNode) → List (String × FSNode)
  | _, [] => []
  | d, (name, node) :: rest =>
    if isKeepFile env (joinPath d name) then (name, node) :: rmPure env d rest
    else
      match node with
      | .file _ _ => rmPure env d rest
      | .dir m es =>
        match rmPureN env (joinPath d name) (.dir m es) with
        | .dir _ [] => rmPure env d rest
        | nd => (name, nd) :: rmPure env d rest

end

mutual

/-- The fault-free copy pass on a pair of nodes (`copyFiles` under
`noFaults`): `none` is the error outcome. -/
def cpPureN (env : Env) : String → String → FSNode → FSNode → Option FSNode
  | _, _, .file _ _, _ => none
  | _, _, .dir _ _, .file _ _ => none
  | sD, dD, .dir _ ses, .dir dm des => (cpPure env sD dD ses des).map (FSNode.dir dm)

/-- The fault-free copy pass on source entries against destination
entries (`copyEntries` under `noFaults`): `none` is the error outcome. -/
def cpPure (env : Env) :
    String → String → List (String × FSNode) → List (String × FSNode) →
      Option (List (String × FSNode))
  | _, _, [], des => some des
  | sD, dD, (name, sNode) :: rest, des =>
    if isKeepFile env (joinPath dD name) then cpPure env sD dD rest des
    else
      match sNode with
      | .dir m es =>
        match findEntry name des with
        | some (.file _ _) => none
        | some (.dir dm0 des0) =>
          match cpPureN env (joinPath sD name) (joinPath dD name) (.dir m es)
              (.dir dm0 des0) with
          | none => none
          | some nd => cpPure env sD dD rest (setEntry name nd des)
        | none =>
          match cpPureN env (joinPath sD name) (joinPath dD name) (.dir m es)
              (.dir m []) with
          | none => none
          | some nd => cpPure env sD dD rest (des ++ [(name, nd)])
      | .file m c =>
        match findEntry name des with
        | some (.dir _ _) => none
        | some (.file fm0 _) => cpPure env sD dD rest (setEntry name (.file fm0 c) des)
        | none => cpPure env sD dD rest (des ++ [(name, .file m c)])

end

/-- Under `noFaults` the deletion loop is exactly its pure projection,
and it reports no error. -/
theorem removeEntries_noFaults (env : Env) :
    ∀ (l : List (String × FSNode)) (d : String),
      removeEntries env noFaults d l = (rmPure env d l, none) := by
  have key : ∀ (k : Nat) (l : List (String × FSNode)), sizeOf l ≤ k → ∀ (d : String),
      removeEntries env noFaults d l = (rmPure env d l, none) := by
    intro k
    induction k with
    | zero =>
      intro l hle
      cases l with
      | nil => intro d; simp [removeEntries, rmPure]
      | cons x rest => simp at hle
    | succ k ih =>
      intro l hle d
      cases l with
      | nil => simp [removeEntries, rmPure]
      | cons x rest =>
        obtain ⟨name, node⟩ := x
        have hrest : sizeOf rest ≤ k := by simp at hle; omega
        by_cases hk : isKeepFile env (joinPath d name)
        · cases node with
          | file m c => simp [removeEntries, rmPure, hk, ih rest hrest d]
          | dir m es => simp [removeEntries, rmPure, hk, ih rest hrest d]
        · cases node with
          | file m c =>
            simp [removeEntries, rmPure, hk, noFaults_rmFail, ih rest hrest d]
          | dir m es =>
            have hes : sizeOf es ≤ k := by simp at hle; omega
            have hsub := ih es hes (joinPath d name)
            cases hL : rmPure env (joinPath d name) es with
            | nil =>
              simp [removeEntries, rmPure, hk, noFaults_rdFail, noFaults_rmFail,
                removeFiles, hsub, hL, rmPureN, ih rest hrest d]
            | cons h0 t0 =>
              simp [removeEntries, rmPure, hk, noFaults_rdFail, noFaults_rmFail,
                removeFiles, hsub, hL, rmPureN, ih rest hrest d]
  exact fun l d => key (sizeOf l) l le_rfl d

/-- Under `noFaults` the copy loop agrees with its pure projection:
a pure success is exactly an error-free run with the same result. -/
theorem copyEntries_noFaults (env : Env) :
    ∀ (l : List (String × FSNode)) (sD dD : String) (des : List (String × FSNode)),
      (∀ r, cpPure env sD dD l des = some r →
        copyEntries env noFaults sD dD l des = (r, none)) ∧
      ((copyEntries env noFaults sD dD l des).2 = none →
        cpPure env sD dD l des = some (copyEntries env noFaults sD dD l des).1) := by
  have key : ∀ (k : Nat) (l : List (String × FSNode)), sizeOf l ≤ k →
      ∀ (sD dD : String) (des : List (String × FSNode)),
        (∀ r, cpPure env sD dD l des = some r →
          copyEntries env noFaults sD dD l des = (r, none)) ∧
        ((copyEntries env noFaults sD dD l des).2 = none →
          cpPure env sD dD l des = some (copyEntries env noFaults sD dD l des).1) := by
    intro k
    induction k with
    | zero =>
      intro l hle
      cases l with
      | nil =>
        intro sD dD des
        constructor
        · intro r hr
          simp [cpPure] at hr
          simp [copyEntries, hr]
        · intro _
          simp [copyEntries, cpPure]
      | cons x rest => simp at hle
    | succ k ih =>
      intro l hle sD dD des
      cases l with
      | nil =>
        constructor
        · intro r hr
          simp [cpPure] at hr
          simp [copyEntries, hr]
        · intro _; simp [copyEntries, cpPure]
      | cons x rest =>
        obtain ⟨name, sNode⟩ := x
        have hrest : sizeOf rest ≤ k := by simp at hle; omega
        by_cases hk : isKeepFile env (joinPath dD name)
        · cases sNode with
          | file m c =>
            simp only [copyEntries, cpPure, hk, if_true]
            exact ih rest hrest sD dD des
          | dir m es =>
            simp only [copyEntries, cpPure, hk, if_true]
            exact ih rest hrest sD dD des
        · cases sNode with
          | file m c =>
            cases hfe : findEntry name des with
            | none =>
              simp only [copyEntries, cpPure, hk, Bool.false_eq_true, if_false,
                noFaults_readFail, noFaults_writeFail, hfe]
              exact ih rest hrest sD dD (des ++ [(name, .file m c)])
            | some v =>
              cases v with
              | file fm0 fc0 =>
                simp only [copyEntries, cpPure, hk, Bool.false_eq_true, if_false,
                  noFaults_readFail, noFaults_writeFail, hfe]
                exact ih rest hrest sD dD (setEntry name (.file fm0 c) des)
              | dir dm0 des0 =>
                simp only [copyEntries, cpPure, hk, Bool.false_eq_true, if_false,
                  noFaults_readFail, noFaults_writeFail, hfe]
                constructor
                · intro r hr; cases hr
                · intro hc; cases hc
          | dir m es =>
            have hes : sizeOf es ≤ k := by simp at hle; omega
            cases hfe : findEntry name des with
            | some v =>
              cases v with
              | file fm0 fc0 =>
                simp only [copyEntries, cpPure, hk, Bool.false_eq_true, if_false, hfe]
                constructor
                · intro r hr; cases hr
                · intro hc; cases hc
              | dir dm0 des0 =>
                cases hsub2 :
                    (copyEntries env noFaults (joinPath sD name) (joinPath dD name)
                      es des0).2 with
                | none =>
                  have hcp := (ih es hes (joinPath sD name) (joinPath dD name) des0).2 hsub2
                  simp only [copyEntries, cpPure, hk, Bool.false_eq_true, if_false, hfe,
                    copyFiles, noFaults_rdFail, hsub2, cpPureN, hcp, Option.map_some]
                  exact ih rest hrest sD dD
                    (setEntry name (.dir dm0
                      (copyEntries env noFaults (joinPath sD name) (joinPath dD name)
                        es des0).1) des)
                | some e =>
                  have hcpn : cpPure env (joinPath sD name) (joinPath dD name) es des0 =
                      none := by
                    cases hcp : cpPure env (joinPath sD name) (joinPath dD name) es des0 with
                    | none => rfl
                    | some r =>
                      have := (ih es hes (joinPath sD name) (joinPath dD name) des0).1 r hcp
                      rw [this] at hsub2
                      cases hsub2
                  simp only [copyEntries, cpPure, hk, Bool.false_eq_true, if_false, hfe,
                    copyFiles, noFaults_rdFail, hsub2, cpPureN, hcpn, Option.map_none]
                  constructor
                  · intro r hr; cases hr
                  · intro hc; cases hc
            | none =>
              cases hsub2 :
                  (copyEntries env noFaults (joinPath sD name) (joinPath dD name)
                    es []).2 with
              | none =>
                have hcp := (ih es hes (joinPath sD name) (joinPath dD name) []).2 hsub2
                simp only [copyEntries, cpPure, hk, Bool.false_eq_true, if_false, hfe,
                  noFaults_mkdirFail, copyFiles, noFaults_rdFail, hsub2, cpPureN, hcp,
                  Option.map_some]
                exact ih rest hrest sD dD
                  (des ++ [(name, .dir m
                    (copyEntries env noFaults (joinPath sD name) (joinPath dD name)
                      es []).1)])
              | some e =>
                have hcpn : cpPure env (joinPath sD name) (joinPath dD name) es [] =
                    none := by
                  cases hcp : cpPure env (joinPath sD name) (joinPath dD name) es [] with
                  | none => rfl
                  | some r =>
                    have := (ih es hes (joinPath sD name) (joinPath dD name) []).1 r hcp
                    rw [this] at hsub2
                    cases hsub2
                simp only [copyEntries, cpPure, hk, Bool.false_eq_true, if_false, hfe,
                  noFaults_mkdirFail, copyFiles, noFaults_rdFail, hsub2, cpPureN, hcpn,
                  Option.map_none]
                constructor
                · intro r hr; cases hr
                · intro hc; cases hc
  exact fun l sD dD des => key (sizeOf l) l le_rfl sD dD des

theorem findEntry_append (name : String) (l1 l2 : List (String × FSNode)) :
    findEntry name (l1 ++ l2) =
      match findEntry name l1 with
      | some x => some x
      | none => findEntry name l2 := by
  induction l1 with
  | nil => simp [findEntry]
  | cons y rest ih =>
    obtain ⟨n0, x0⟩ := y
    by_cases hn : n0 = name <;> simp [findEntry, hn, ih]

theorem findEntry_setEntry_self (name : String) (v : FSNode)
    (l : List (String × FSNode)) (x : FSNode) (h : findEntry name l = some x) :
    findEntry name (setEntry name v l) = some v := by
  induction l with
  | nil => simp [findEntry] at h
  | cons y rest ih =>
    obtain ⟨n0, x0⟩ := y
    by_cases hn : n0 = name
    · simp [findEntry, setEntry, hn]
    · rw [findEntry, if_neg hn] at h
      simp [findEntry, setEntry, hn, ih h]

theorem findEntry_setEntry_ne (name n0 : String) (v : FSNode)
    (l : List (String × FSNode)) (hn : n0 ≠ name) :
    findEntry name (setEntry n0 v l) = findEntry name l := by
  induction l with
  | nil => simp [setEntry]
  | cons y rest ih =>
    obtain ⟨n1, x1⟩ := y
    by_cases h1 : n1 = n0
    · subst h1
      simp [setEntry, findEntry, hn]
    · by_cases h2 : n1 = name <;> simp [setEntry, findEntry, h1, h2, Ne.symm hn, ih]

theorem findEntry_none_of_not_mem (name : String) (l : List (String × FSNode))
    (h : name ∉ l.map Prod.fst) : findEntry name l = none := by
  induction l with
  | nil => simp [findEntry]
  | cons y rest ih =>
    obtain ⟨n0, x0⟩ := y
    simp only [List.map_cons, List.mem_cons] at h
    push_neg at h
    rw [findEntry, if_neg (fun he => h.1 he.symm)]
    exact ih h.2

theorem rmPure_cons_keep (env : Env) (d name : String) (node : FSNode)
    (rest : List (String × FSNode)) (hk : isKeepFile env (joinPath d name) = true) :
    rmPure env d ((name, node) :: rest) = (name, node) :: rmPure env d rest := by
  cases node <;> simp [rmPure, hk]

theorem rmPure_cons_file (env : Env) (d name : String) (m : Nat) (c : String)
    (rest : List (String × FSNode)) (hk : isKeepFile env (joinPath d name) = false) :
    rmPure env d ((name, .file m c) :: rest) = rmPure env d rest := by
  simp [rmPure, hk]

theorem rmPure_cons_dir (env : Env) (d name : String) (m : Nat)
    (es rest : List (String × FSNode)) (hk : isKeepFile env (joinPath d name) = false) :
    rmPure env d ((name, .dir m es) :: rest) =
      match rmPure env (joinPath d name) es with
      | [] => rmPure env d rest
      | h :: t => (name, .dir m (h :: t)) :: rmPure env d rest := by
  cases hL : rmPure env (joinPath d name) es <;> simp [rmPure, rmPureN, hk, hL]

/-- The deletion pass treats each entry independently. -/
theorem rmPure_append (env : Env) (d : String) (l1 l2 : List (String × FSNode)) :
    rmPure env d (l1 ++ l2) = rmPure env d l1 ++ rmPure env d l2 := by
  induction l1 with
  | nil => simp [rmPure]
  | cons y rest ih =>
    obtain ⟨n0, x0⟩ := y
    by_cases hk : isKeepFile env (joinPath d n0)
    · rw [List.cons_append, rmPure_cons_keep env d n0 x0 _ hk,
        rmPure_cons_keep env d n0 x0 rest hk, List.cons_append, ih]
    · cases x0 with
      | file m c =>
        rw [List.cons_append,
          rmPure_cons_file env d n0 m c _ (by simpa using hk),
          rmPure_cons_file env d n0 m c rest (by simpa using hk), ih]
      | dir m es =>
        rw [List.cons_append,
          rmPure_cons_dir env d n0 m es _ (by simpa using hk),
          rmPure_cons_dir env d n0 m es rest (by simpa using hk)]
        cases hL : rmPure env (joinPath d n0) es <;> simp [ih]

theorem rmPure_length_le (env : Env) (d : String) :
    ∀ (l : List (String × FSNode)), (rmPure env d l).length ≤ l.length := by
  intro l
  induction l with
  | nil => simp [rmPure]
  | cons y rest ih =>
    obtain ⟨n0, x0⟩ := y
    by_cases hk : isKeepFile env (joinPath d n0)
    · rw [rmPure_cons_keep env d n0 x0 rest hk]
      simpa using ih
    · cases x0 with
      | file m c =>
        rw [rmPure_cons_file env d n0 m c rest (by simpa using hk)]
        exact ih.trans (Nat.le_succ _)
      | dir m es =>
        rw [rmPure_cons_dir env d n0 m es rest (by simpa using hk)]
        cases hL : rmPure env (joinPath d n0) es with
        | nil => exact ih.trans (Nat.le_succ _)
        | cons h t => simpa using ih

/-- An entry list fixed by the deletion pass holds only protected
entries and non-empty directories that are themselves fixed. -/
theorem rmPure_fix_mem (env : Env) (d : String) :
    ∀ (l : List (String × FSNode)), rmPure env d l = l →
      ∀ (n : String) (x : FSNode), (n, x) ∈ l →
        isKeepFile env (joinPath d n) = true ∨
          ∃ m es, x = .dir m es ∧ rmPure env (joinPath d n) es = es ∧ es ≠ [] := by
  intro l
  induction l with
  | nil => intro _ n x hm; cases hm
  | cons y rest ih =>
    obtain ⟨n0, x0⟩ := y
    intro hfix n x hm
    by_cases hk : isKeepFile env (joinPath d n0)
    · rw [rmPure_cons_keep env d n0 x0 rest hk] at hfix
      have htail : rmPure env d rest = rest := (List.cons.injEq .. ▸ hfix).2
      rcases List.mem_cons.1 hm with heq | hmem
      · obtain ⟨h1, h2⟩ := Prod.mk.injEq .. ▸ heq
        subst h1; subst h2
        exact Or.inl hk
      · exact ih htail n x hmem
    · cases x0 with
      | file m c =>
        rw [rmPure_cons_file env d n0 m c rest (by simpa using hk)] at hfix
        have := rmPure_length_le env d rest
        rw [hfix] at this
        simp at this
      | dir m es =>
        rw [rmPure_cons_dir env d n0 m es rest (by simpa using hk)] at hfix
        cases hL : rmPure env (joinPath d n0) es with
        | nil =>
          rw [hL] at hfix
          simp only at hfix
          have := rmPure_length_le env d rest
          rw [hfix] at this
          simp at this
        | cons h t =>
          rw [hL] at hfix
          simp only [List.cons.injEq, Prod.mk.injEq, FSNode.dir.injEq] at hfix
          obtain ⟨⟨_, _, hes⟩, htail⟩ := hfix
          rcases List.mem_cons.1 hm with heq | hmem
          · obtain ⟨h1, h2⟩ := Prod.mk.injEq .. ▸ heq
            subst h1; subst h2
            refine Or.inr ⟨m, es, rfl, ?_, ?_⟩
            · rw [hL, hes]
            · intro he; rw [he] at hes; cases hes
          · exact ih htail n x hmem

/-- The deletion pass is idempotent. -/
theorem rmPure_idem (env : Env) :
    ∀ (l : List (String × FSNode)) (d : String),
      rmPure env d (rmPure env d l) = rmPure env d l := by
  have key : ∀ (k : Nat) (l : List (String × FSNode)), sizeOf l ≤ k → ∀ (d : String),
      rmPure env d (rmPure env d l) = rmPure env d l := by
    intro k
    induction k with
    | zero =>
      intro l hle
      cases l with
      | nil => intro d; simp [rmPure]
      | cons x rest => simp at hle
    | succ k ih =>
      intro l hle d
      cases l with
      | nil => simp [rmPure]
      | cons y rest =>
        obtain ⟨n0, x0⟩ := y
        have hrest : sizeOf rest ≤ k := by simp at hle; omega
        by_cases hk : isKeepFile env (joinPath d n0)
        · rw [rmPure_cons_keep env d n0 x0 rest hk,
            rmPure_cons_keep env d n0 x0 _ hk, ih rest hrest d]
        · cases x0 with
          | file m c =>
            rw [rmPure_cons_file env d n0 m c rest (by simpa using hk), ih rest hrest d]
          | dir m es =>
            have hes : sizeOf es ≤ k := by simp at hle; omega
            rw [rmPure_cons_dir env d n0 m es rest (by simpa using hk)]
            cases hL : rmPure env (joinPath d n0) es with
            | nil => exact ih rest hrest d
            | cons h t =>
              rw [rmPure_cons_dir env d n0 m (h :: t) _ (by simpa using hk)]
              have : rmPure env (joinPath d n0) (h :: t) = h :: t := by
                rw [show h :: t = rmPure env (joinPath d n0) es from hL.symm]
                exact ih es hes (joinPath d n0)
              rw [this, ih rest hrest d]

  exact fun l d => key (sizeOf l) l le_rfl d

/-- Overwriting an unprotected file in place does not change what the
deletion pass would leave. -/
theorem rmPure_setEntry_file (env : Env) (d name : String)
    (hk : isKeepFile env (joinPath d name) = false) :
    ∀ (l : List (String × FSNode)) (f0 : Nat) (c0 : String) (f1 : Nat) (c1 : String),
      findEntry name l = some (.file f0 c0) →
      rmPure env d (setEntry name (.file f1 c1) l) = rmPure env d l := by
  intro l
  induction l with
  | nil => intro f0 c0 f1 c1 h; simp [findEntry] at h
  | cons y rest ih =>
    obtain ⟨n0, x0⟩ := y
    intro f0 c0 f1 c1 h
    by_cases hn : n0 = name
    · subst hn
      rw [findEntry, if_pos rfl] at h
      obtain rfl : x0 = FSNode.file f0 c0 := Option.some_inj.1 h
      rw [setEntry, if_pos rfl, rmPure_cons_file env d n0 f1 c1 rest hk,
        rmPure_cons_file env d n0 f0 c0 rest hk]
    · rw [findEntry, if_neg hn] at h
      rw [setEntry, if_neg hn]
      by_cases hk0 : isKeepFile env (joinPath d n0)
      · rw [rmPure_cons_keep env d n0 x0 _ hk0, rmPure_cons_keep env d n0 x0 rest hk0,
          ih f0 c0 f1 c1 h]
      · cases x0 with
        | file m0 c0' =>
          rw [rmPure_cons_file env d n0 m0 c0' _ (by simpa using hk0),
            rmPure_cons_file env d n0 m0 c0' rest (by simpa using hk0),
            ih f0 c0 f1 c1 h]
        | dir m0 es0 =>
          rw [rmPure_cons_dir env d n0 m0 es0 _ (by simpa using hk0),
            rmPure_cons_dir env d n0 m0 es0 rest (by simpa using hk0),
            ih f0 c0 f1 c1 h]

/-- Replacing an unprotected directory's children by children with the
same deletion image does not change what the deletion pass would leave. -/
theorem rmPure_setEntry_dir (env : Env) (d name : String)
    (hk : isKeepFile env (joinPath d name) = false) :
    ∀ (l : List (String × FSNode)) (dm0 : Nat) (des0 des0' : List (String × FSNode)),
      findEntry name l = some (.dir dm0 des0) →
      rmPure env (joinPath d name) des0' = rmPure env (joinPath d name) des0 →
      rmPure env d (setEntry name (.dir dm0 des0') l) = rmPure env d l := by
  intro l
  induction l with
  | nil => intro dm0 des0 des0' h _; simp [findEntry] at h
  | cons y rest ih =>
    obtain ⟨n0, x0⟩ := y
    intro dm0 des0 des0' h heq
    by_cases hn : n0 = name
    · subst hn
      rw [findEntry, if_pos rfl] at h
      obtain rfl : x0 = FSNode.dir dm0 des0 := Option.some_inj.1 h
      rw [setEntry, if_pos rfl, rmPure_cons_dir env d n0 dm0 des0' rest hk,
        rmPure_cons_dir env d n0 dm0 des0 rest hk, heq]
    · rw [findEntry, if_neg hn] at h
      rw [setEntry, if_neg hn]
      by_cases hk0 : isKeepFile env (joinPath d n0)
      · rw [rmPure_cons_keep env d n0 x0 _ hk0, rmPure_cons_keep env d n0 x0 rest hk0,
          ih dm0 des0 des0' h heq]
      · cases x0 with
        | file m0 c0' =>
          rw [rmPure_cons_file env d n0 m0 c0' _ (by simpa using hk0),
            rmPure_cons_file env d n0 m0 c0' rest (by simpa using hk0),
            ih dm0 des0 des0' h heq]
        | dir m0 es0 =>
          rw [rmPure_cons_dir env d n0 m0 es0 _ (by simpa using hk0),
            rmPure_cons_dir env d n0 m0 es0 rest (by simpa using hk0),
            ih dm0 des0 des0' h heq]

/-- The copy pass preserves the deletion image of the destination:
everything it adds or overwrites would be deleted again, and everything
that would survive deletion is left exactly as it was. -/
theorem cpPure_preserves_rmPure (env : Env) :
    ∀ (ses : List (String × FSNode)) (sD d : String) (des out : List (String × FSNode)),
      cpPure env sD d ses des = some out →
      rmPure env d out = rmPure env d des := by
  have key : ∀ (k : Nat) (ses : List (String × FSNode)), sizeOf ses ≤ k →
      ∀ (sD d : String) (des out : List (String × FSNode)),
        cpPure env sD d ses des = some out →
        rmPure env d out = rmPure env d des := by
    intro k
    induction k with
    | zero =>
      intro ses hle
      cases ses with
      | nil =>
        intro sD d des out h
        simp [cpPure] at h
        rw [h]
      | cons x rest => simp at hle
    | succ k ih =>
      intro ses hle sD d des out h
      cases ses with
      | nil =>
        simp [cpPure] at h
        rw [h]
      | cons x rest =>
        obtain ⟨name, sNode⟩ := x
        have hrest : sizeOf rest ≤ k := by simp at hle; omega
        by_cases hk : isKeepFile env (joinPath d name)
        · cases sNode with
          | file m c =>
            rw [cpPure, if_pos hk] at h
            exact ih rest hrest sD d des out h
          | dir m es =>
            rw [cpPure, if_pos hk] at h
            exact ih rest hrest sD d des out h
        · have hk' : isKeepFile env (joinPath d name) = false := by simpa using hk
          cases sNode with
          | file m c =>
            rw [cpPure, if_neg hk] at h
            cases hfe : findEntry name des with
            | none =>
              rw [hfe] at h
              simp only at h
              have := ih rest hrest sD d (des ++ [(name, .file m c)]) out h
              rw [this, rmPure_append,
                rmPure_cons_file env d name m c [] hk']
              simp [rmPure]
            | some v =>
              cases v with
              | dir dm0 des0 => rw [hfe] at h; cases h
              | file fm0 fc0 =>
                rw [hfe] at h
                simp only at h
                have := ih rest hrest sD d (setEntry name (.file fm0 c) des) out h
                rw [this, rmPure_setEntry_file env d name hk' des fm0 fc0 fm0 c hfe]
          | dir m es =>
            have hes : sizeOf es ≤ k := by simp at hle; omega
            rw [cpPure, if_neg hk] at h
            cases hfe : findEntry name des with
            | some v =>
              cases v with
              | file fm0 fc0 => rw [hfe] at h; cases h
              | dir dm0 des0 =>
                rw [hfe] at h
                simp only [cpPureN] at h
                cases hc : cpPure env (joinPath sD name) (joinPath d name) es des0 with
                | none => rw [hc] at h; cases h
                | some des0' =>
                  rw [hc] at h
                  simp only [Option.map_some'] at h
                  have hdeep := ih es hes (joinPath sD name) (joinPath d name) des0 des0' hc
                  have := ih rest hrest sD d (setEntry name (.dir dm0 des0') des) out h
                  rw [this, rmPure_setEntry_dir env d name hk' des dm0 des0 des0' hfe hdeep]
            | none =>
              rw [hfe] at h
              simp only [cpPureN] at h
              cases hc : cpPure env (joinPath sD name) (joinPath d name) es [] with
              | none => rw [hc] at h; cases h
              | some des0' =>
                rw [hc] at h
                simp only [Option.map_some'] at h
                have hdeep := ih es hes (joinPath sD name) (joinPath d name) [] des0' hc
                have := ih rest hrest sD d (des ++ [(name, .dir m des0')]) out h
                rw [this, rmPure_append,
                  rmPure_cons_dir env d name m des0' [] hk']
                rw [show rmPure env (joinPath d name) des0' = [] by
                  rw [hdeep]; simp [rmPure]]
                simp [rmPure]
  exact fun ses sD d des out h => key (sizeOf ses) ses le_rfl sD d des out h

/-- Whether some entry carries the given name. -/
def hasName (n : String) : List (String × FSNode) → Bool
  | [] => false
  | (n0, _) :: rest => n0 == n || hasName n rest

mutual

/-- Well-formed listing: within a tree no directory lists the same
name twice, as a real filesystem guarantees. -/
def nodupN : FSNode → Bool
  | .file _ _ => true
  | .dir _ es => nodupE es

/-- Well-formed listing for an entry list. -/
def nodupE : List (String × FSNode) → Bool
  | [] => true
  | (n, x) :: rest => !(hasName n rest) && nodupN x && nodupE rest

end

theorem findEntry_none_of_hasName_false (n : String) :
    ∀ (l : List (String × FSNode)), hasName n l = false → findEntry n l = none := by
  intro l
  induction l with
  | nil => intro _; simp [findEntry]
  | cons y rest ih =>
    obtain ⟨n0, x0⟩ := y
    intro h
    simp only [hasName, Bool.or_eq_false_iff, beq_eq_false_iff_ne] at h
    rw [findEntry, if_neg h.1]
    exact ih h.2

theorem nodupE_cons (n : String) (x : FSNode) (rest : List (String × FSNode))
    (h : nodupE ((n, x) :: rest) = true) :
    hasName n rest = false ∧ nodupN x = true ∧ nodupE rest = true := by
  cases x with
  | file m c =>
    simp only [nodupE, Bool.and_eq_true, Bool.not_eq_true'] at h
    exact ⟨h.1.1, h.1.2, h.2⟩
  | dir m es =>
    simp only [nodupE, Bool.and_eq_true, Bool.not_eq_true'] at h
    exact ⟨h.1.1, h.1.2, h.2⟩

theorem findEntry_mem (name : String) :
    ∀ (l : List (String × FSNode)) (x : FSNode),
      findEntry name l = some x → (name, x) ∈ l := by
  intro l
  induction l with
  | nil => intro x h; simp [findEntry] at h
  | cons y rest ih =>
    obtain ⟨n0, x0⟩ := y
    intro x h
    by_cases hn : n0 = name
    · subst hn
      rw [findEntry, if_pos rfl] at h
      obtain rfl : x0 = x := Option.some_inj.1 h
      exact List.mem_cons_self _ _
    · rw [findEntry, if_neg hn] at h
      exact List.mem_cons_of_mem _ (ih x h)

/-- Tracing one destination name through a successful copy pass: a name
absent from the source keeps its old destination entry; a source file
lands as a file with the source's content (keeping a pre-existing
file's mode, taking the source mode when created fresh); a source
directory lands as a directory (keeping a pre-existing directory's
mode) whose children are the successful recursive copy. -/
theorem cpPure_trace (env : Env) :
    ∀ (ses : List (String × FSNode)) (sD d : String) (des out : List (String × FSNode)),
      cpPure env sD d ses des = some out →
      nodupE ses = true →
      ∀ (name : String), isKeepFile env (joinPath d name) = false →
      ((findEntry name ses = none → findEntry name out = findEntry name des) ∧
       (∀ m c, findEntry name ses = some (.file m c) →
         (findEntry name des = none ∧ findEntry name out = some (.file m c)) ∨
         (∃ f0 c0, findEntry name des = some (.file f0 c0) ∧
           findEntry name out = some (.file f0 c))) ∧
       (∀ m es, findEntry name ses = some (.dir m es) →
         (findEntry name des = none ∧
           ∃ des0', cpPure env (joinPath sD name) (joinPath d name) es [] = some des0' ∧
             findEntry name out = some (.dir m des0')) ∨
         (∃ dm0 des0 des0', findEntry name des = some (.dir dm0 des0) ∧
           cpPure env (joinPath sD name) (joinPath d name) es des0 = some des0' ∧
           findEntry name out = some (.dir dm0 des0')))) := by
  intro ses
  induction ses with
  | nil =>
    intro sD d des out h _ name _
    simp only [cpPure] at h
    obtain rfl : des = out := Option.some_inj.1 h
    refine ⟨fun _ => rfl, fun m c hf => ?_, fun m es hf => ?_⟩ <;> simp [findEntry] at hf
  | cons y rest ih =>
    obtain ⟨n0, s0⟩ := y
    intro sD d des out h hnd name hkname
    obtain ⟨hh, hnds0, hndrest⟩ := nodupE_cons n0 s0 rest hnd
    by_cases hk0 : isKeepFile env (joinPath d n0)
    · have hne : n0 ≠ name := by
        intro he; rw [he, hkname] at hk0; cases hk0
      have hstep : cpPure env sD d rest des = some out := by
        cases s0 with
        | file m c => rw [cpPure, if_pos hk0] at h; exact h
        | dir m es => rw [cpPure, if_pos hk0] at h; exact h
      have hrec := ih sD d des out hstep hndrest name hkname
      refine ⟨fun hf => ?_, fun m c hf => ?_, fun m es hf => ?_⟩ <;>
        rw [findEntry, if_neg hne] at hf
      · exact hrec.1 hf
      · exact hrec.2.1 m c hf
      · exact hrec.2.2 m es hf
    · have hk0' : isKeepFile env (joinPath d n0) = false := by simpa using hk0
      cases s0 with
      | file m0 c0 =>
        rw [cpPure, if_neg hk0] at h
        cases hfe0 : findEntry n0 des with
        | some v =>
          cases v with
          | dir dm00 des00 => rw [hfe0] at h; cases h
          | file f0 fc0 =>
            rw [hfe0] at h
            simp only at h
            have hrec := ih sD d (setEntry n0 (.file f0 c0) des) out h hndrest
            by_cases hn : n0 = name
            · subst hn
              refine ⟨fun hf => ?_, fun m c hf => ?_, fun m es hf => ?_⟩
              · rw [findEntry, if_pos rfl] at hf; cases hf
              · rw [findEntry, if_pos rfl] at hf
                obtain ⟨hm, hc⟩ := FSNode.file.injEq .. ▸ Option.some_inj.1 hf
                subst hm; subst hc
                refine Or.inr ⟨f0, fc0, hfe0, ?_⟩
                rw [(hrec n0 hkname).1
                  (findEntry_none_of_hasName_false n0 rest hh)]
                exact findEntry_setEntry_self n0 (.file f0 c0) des _ hfe0
              · rw [findEntry, if_pos rfl] at hf; cases hf
            · refine ⟨fun hf => ?_, fun m c hf => ?_, fun m es hf => ?_⟩ <;>
                rw [findEntry, if_neg hn] at hf
              · rw [(hrec name hkname).1 hf]
                exact findEntry_setEntry_ne name n0 _ des hn
              · rcases (hrec name hkname).2.1 m c hf with ⟨h1, h2⟩ | ⟨a, b, h1, h2⟩
                · rw [findEntry_setEntry_ne name n0 _ des hn] at h1
                  exact Or.inl ⟨h1, h2⟩
                · rw [findEntry_setEntry_ne name n0 _ des hn] at h1
                  exact Or.inr ⟨a, b, h1, h2⟩
              · rcases (hrec name hkname).2.2 m es hf with ⟨h1, h2⟩ | ⟨a, b, bb, h1, h2, h3⟩
                · rw [findEntry_setEntry_ne name n0 _ des hn] at h1
                  exact Or.inl ⟨h1, h2⟩
                · rw [findEntry_setEntry_ne name n0 _ des hn] at h1
                  exact Or.inr ⟨a, b, bb, h1, h2, h3⟩
        | none =>
          rw [hfe0] at h
          simp only at h
          have hrec := ih sD d (des ++ [(n0, .file m0 c0)]) out h hndrest
          by_cases hn : n0 = name
          · subst hn
            refine ⟨fun hf => ?_, fun m c hf => ?_, fun m es hf => ?_⟩
            · rw [findEntry, if_pos rfl] at hf; cases hf
            · rw [findEntry, if_pos rfl] at hf
              obtain ⟨hm, hc⟩ := FSNode.file.injEq .. ▸ Option.some_inj.1 hf
              subst hm; subst hc
              refine Or.inl ⟨hfe0, ?_⟩
              rw [(hrec n0 hkname).1
                (findEntry_none_of_hasName_false n0 rest hh)]
              rw [findEntry_append, hfe0]
              simp [findEntry]
            · rw [findEntry, if_pos rfl] at hf; cases hf
          · have happ : findEntry name (des ++ [(n0, FSNode.file m0 c0)]) =
                findEntry name des := by
              rw [findEntry_append]
              cases hq : findEntry name des with
              | some x => rfl
              | none => simp [findEntry, hn]
            refine ⟨fun hf => ?_, fun m c hf => ?_, fun m es hf => ?_⟩ <;>
              rw [findEntry, if_neg hn] at hf
            · rw [(hrec name hkname).1 hf, happ]
            · rcases (hrec name hkname).2.1 m c hf with ⟨h1, h2⟩ | ⟨a, b, h1, h2⟩
              · rw [happ] at h1
                exact Or.inl ⟨h1, h2⟩
              · rw [happ] at h1
                exact Or.inr ⟨a, b, h1, h2⟩
            · rcases (hrec name hkname).2.2 m es hf with ⟨h1, h2⟩ | ⟨a, b, bb, h1, h2, h3⟩
              · rw [happ] at h1
                exact Or.inl ⟨h1, h2⟩
              · rw [happ] at h1
                exact Or.inr ⟨a, b, bb, h1, h2, h3⟩
      | dir m0 es0 =>
        rw [cpPure, if_neg hk0] at h
        cases hfe0 : findEntry n0 des with
        | some v =>
          cases v with
          | file f0 fc0 => rw [hfe0] at h; cases h
          | dir dm00 des00 =>
            rw [hfe0] at h
            simp only [cpPureN] at h
            cases hc : cpPure env (joinPath sD n0) (joinPath d n0) es0 des00 with
            | none => rw [hc] at h; cases h
            | some des0' =>
              rw [hc] at h
              simp only [Option.map_some'] at h
              have hrec := ih sD d (setEntry n0 (.dir dm00 des0') des) out h hndrest
              by_cases hn : n0 = name
              · subst hn
                refine ⟨fun hf => ?_, fun m c hf => ?_, fun m es hf => ?_⟩
                · rw [findEntry, if_pos rfl] at hf; cases hf
                · rw [findEntry, if_pos rfl] at hf; cases hf
                · rw [findEntry, if_pos rfl] at hf
                  obtain ⟨hm, hes⟩ := FSNode.dir.injEq .. ▸ Option.some_inj.1 hf
                  subst hm; subst hes
                  refine Or.inr ⟨dm00, des00, des0', hfe0, hc, ?_⟩
                  rw [(hrec n0 hkname).1
                    (findEntry_none_of_hasName_false n0 rest hh)]
                  exact findEntry_setEntry_self n0 (.dir dm00 des0') des _ hfe0
              · refine ⟨fun hf => ?_, fun m c hf => ?_, fun m es hf => ?_⟩ <;>
                  rw [findEntry, if_neg hn] at hf
                · rw [(hrec name hkname).1 hf]
                  exact findEntry_setEntry_ne name n0 _ des hn
                · rcases (hrec name hkname).2.1 m c hf with ⟨h1, h2⟩ | ⟨a, b, h1, h2⟩
                  · rw [findEntry_setEntry_ne name n0 _ des hn] at h1
                    exact Or.inl ⟨h1, h2⟩
                  · rw [findEntry_setEntry_ne name n0 _ des hn] at h1
                    exact Or.inr ⟨a, b, h1, h2⟩
                · rcases (hrec name hkname).2.2 m es hf with
                    ⟨h1, h2⟩ | ⟨a, b, bb, h1, h2, h3⟩
                  · rw [findEntry_setEntry_ne name n0 _ des hn] at h1
                    exact Or.inl ⟨h1, h2⟩
                  · rw [findEntry_setEntry_ne name n0 _ des hn] at h1
                    exact Or.inr ⟨a, b, bb, h1, h2, h3⟩
        | none =>
          rw [hfe0] at h
          simp only [cpPureN] at h
          cases hc : cpPure env (joinPath sD n0) (joinPath d n0) es0 [] with
          | none => rw [hc] at h; cases h
          | some des0' =>
            rw [hc] at h
            simp only [Option.map_some'] at h
            have hrec := ih sD d (des ++ [(n0, .dir m0 des0')]) out h hndrest
            by_cases hn : n0 = name
            · subst hn
              refine ⟨fun hf => ?_, fun m c hf => ?_, fun m es hf => ?_⟩
              · rw [findEntry, if_pos rfl] at hf; cases hf
              · rw [findEntry, if_pos rfl] at hf; cases hf
              · rw [findEntry, if_pos rfl] at hf
                obtain ⟨hm, hes⟩ := FSNode.dir.injEq .. ▸ Option.some_inj.1 hf
                subst hm; subst hes
                refine Or.inl ⟨hfe0, des0', hc, ?_⟩
                rw [(hrec n0 hkname).1
                  (findEntry_none_of_hasName_false n0 rest hh)]
                rw [findEntry_append, hfe0]
                simp [findEntry]
            · have happ : findEntry name (des ++ [(n0, FSNode.dir m0 des0')]) =
                  findEntry name des := by
                rw [findEntry_append]
                cases hq : findEntry name des with
                | some x => rfl
                | none => simp [findEntry, hn]
              refine ⟨fun hf => ?_, fun m c hf => ?_, fun m es hf => ?_⟩ <;>
                rw [findEntry, if_neg hn] at hf
              · rw [(hrec name hkname).1 hf, happ]
              · rcases (hrec name hkname).2.1 m c hf with ⟨h1, h2⟩ | ⟨a, b, h1, h2⟩
                · rw [happ] at h1
                  exact Or.inl ⟨h1, h2⟩
                · rw [happ] at h1
                  exact Or.inr ⟨a, b, h1, h2⟩
              · rcases (hrec name hkname).2.2 m es hf with
                  ⟨h1, h2⟩ | ⟨a, b, bb, h1, h2, h3⟩
                · rw [happ] at h1
                  exact Or.inl ⟨h1, h2⟩
                · rw [happ] at h1
                  exact Or.inr ⟨a, b, bb, h1, h2, h3⟩

/-- Agreement at the top of a node: files must match exactly in mode
and content; directories agree as directories (their modes may differ,
their children are compared along deeper paths). -/
def topAgree : FSNode → FSNode → Prop
  | .file m c, .file m' c' => m = m' ∧ c = c'
  | .dir _ _, .dir _ _ => True
  | _, _ => False

/-- A relative component path none of whose positions — intermediate or
final — is keep-list-protected. -/
def freeB (env : Env) : String → List String → Bool
  | _, [] => true
  | d, q :: p => !(isKeepFile env (joinPath d q)) && freeB env (joinPath d q) p

/-- Follow a non-empty relative component path through an entry list. -/
def lookupE (l : List (String × FSNode)) : List String → Option FSNode
  | [] => none
  | q :: p =>
    match findEntry q l with
    | none => none
    | some c => lookupPath c p

theorem lookupPath_dir (m : Nat) (l : List (String × FSNode)) (q : String)
    (p : List String) :
    lookupPath (.dir m l) (q :: p) = lookupE l (q :: p) := by
  cases hf : findEntry q l <;> simp [lookupPath, lookupE, hf]

theorem lookupE_cons_some (l : List (String × FSNode)) (q : String) (p : List String)
    (c : FSNode) (h : findEntry q l = some c) :
    lookupE l (q :: p) = lookupPath c p := by
  simp [lookupE, h]

theorem lookupE_cons_none (l : List (String × FSNode)) (q : String) (p : List String)
    (h : findEntry q l = none) :
    lookupE l (q :: p) = none := by
  simp [lookupE, h]

theorem absAlong_cons (d q : String) (p : List String) :
    absAlong d (q :: p) = absAlong (joinPath d q) p := rfl

theorem freeB_cons (env : Env) (d q : String) (p : List String) :
    freeB env d (q :: p) = true ↔
      isKeepFile env (joinPath d q) = false ∧ freeB env (joinPath d q) p = true := by
  simp [freeB]

/-- A non-empty directory fixed by the deletion pass shelters a
protected node. -/
theorem normal_dir_shelters (env : Env) (full : String) (m : Nat)
    (es : List (String × FSNode)) (hfix : rmPure env full es = es) (hne : es ≠ []) :
    shelters env full (.dir m es) = true := by
  cases es with
  | nil => exact absurd rfl hne
  | cons y t =>
    obtain ⟨n1, y1⟩ := y
    have hmem : (n1, y1) ∈ (removeEntries env noFaults full ((n1, y1) :: t)).1 := by
      rw [removeEntries_noFaults, hfix]
      exact List.mem_cons_self _ _
    have hdisj := removeEntries_survivors env ((n1, y1) :: t) full n1 y1 hmem
    have hsh := sheltersList_of_mem env full ((n1, y1) :: t) n1 y1
      (List.mem_cons_self _ _) hdisj
    simpa [shelters] using hsh

/-- Looking up a free path in a tree fixed by the deletion pass finds
nothing, or finds a directory sheltering a protected node. -/
theorem normal_lookup_shelters (env : Env) :
    ∀ (p : List String) (l : List (String × FSNode)) (d : String),
      rmPure env d l = l → p ≠ [] → freeB env d p = true →
      lookupE l p = none ∨
        ∃ n', lookupE l p = some n' ∧ shelters env (absAlong d p) n' = true := by
  intro p
  induction p with
  | nil => intro l d _ hp; exact absurd rfl hp
  | cons q p' ih =>
    intro l d hfix _ hfree
    obtain ⟨hkq, hfree'⟩ := (freeB_cons env d q p').1 hfree
    cases hf : findEntry q l with
    | none => left; exact lookupE_cons_none l q p' hf
    | some c =>
      have hmem := findEntry_mem q l c hf
      rcases rmPure_fix_mem env d l hfix q c hmem with hkeep | ⟨m, es, rfl, hfix0, hne0⟩
      · rw [hkeep] at hkq; cases hkq
      · rw [lookupE_cons_some l q p' _ hf]
        cases p' with
        | nil =>
          right
          refine ⟨.dir m es, by simp [lookupPath], ?_⟩
          rw [absAlong_cons]
          exact normal_dir_shelters env (joinPath d q) m es hfix0 hne0
        | cons q2 p2 =>
          rw [lookupPath_dir, absAlong_cons]
          exact ih es (joinPath d q) hfix0 (by simp) hfree'

theorem nodupE_findEntry (name : String) :
    ∀ (l : List (String × FSNode)) (x : FSNode), nodupE l = true →
      findEntry name l = some x → nodupN x = true := by
  intro l
  induction l with
  | nil => intro x _ hf; simp [findEntry] at hf
  | cons y rest ih =>
    obtain ⟨n0, x0⟩ := y
    intro x hnd hf
    obtain ⟨_, hx0, hrest⟩ := nodupE_cons n0 x0 rest hnd
    by_cases hn : n0 = name
    · subst hn
      rw [findEntry, if_pos rfl] at hf
      obtain rfl : x0 = x := Option.some_inj.1 hf
      exact hx0
    · rw [findEntry, if_neg hn] at hf
      exact ih x hrest hf

/-- Free-path lookups after a successful copy: every source node at a
free path lands in the destination (files byte- and mode-exact,
directories as directories), and a free path absent from the source is
absent from the result unless a sheltering directory survived there. -/
theorem cpPure_lookup (env : Env) :
    ∀ (p : List String) (ses des out : List (String × FSNode)) (sD d : String),
      cpPure env sD d ses des = some out →
      nodupE ses = true →
      rmPure env d des = des →
      freeB env d p = true → p ≠ [] →
      (∀ n, lookupE ses p = some n →
        ∃ n', lookupE out p = some n' ∧ topAgree n n') ∧
      (lookupE ses p = none →
        lookupE out p = none ∨
          ∃ n', lookupE out p = some n' ∧
            shelters env (absAlong d p) n' = true) := by
  intro p
  induction p with
  | nil => intro ses des out sD d _ _ _ _ hp; exact absurd rfl hp
  | cons name p' ih =>
    intro ses des out sD d h hnd hnorm hfree _
    obtain ⟨hkname, hfree'⟩ := (freeB_cons env d name p').1 hfree
    have htr := cpPure_trace env ses sD d des out h hnd name hkname
    cases hfs : findEntry name ses with
    | none =>
      have hout : findEntry name out = findEntry name des := htr.1 hfs
      constructor
      · intro n hn
        rw [lookupE_cons_none ses name p' hfs] at hn
        cases hn
      · intro _
        cases hfd : findEntry name des with
        | none =>
          left
          exact lookupE_cons_none out name p' (hout.trans hfd)
        | some x =>
          rw [lookupE_cons_some out name p' x (hout.trans hfd)]
          have hmem := findEntry_mem name des x hfd
          rcases rmPure_fix_mem env d des hnorm name x hmem with
            hkeep | ⟨m, es, rfl, hfix0, hne0⟩
          · rw [hkeep] at hkname; cases hkname
          · cases p' with
            | nil =>
              right
              refine ⟨.dir m es, by simp [lookupPath], ?_⟩
              rw [absAlong_cons]
              exact normal_dir_shelters env (joinPath d name) m es hfix0 hne0
            | cons q2 p2 =>
              rw [lookupPath_dir, absAlong_cons]
              exact normal_lookup_shelters env (q2 :: p2) es (joinPath d name)
                hfix0 (by simp) hfree'
    | some s0 =>
      cases s0 with
      | file m c =>
        have hcase := htr.2.1 m c hfs
        have hout : findEntry name des = none ∧
            findEntry name out = some (.file m c) := by
          rcases hcase with h1 | ⟨f0, c0, h1, _⟩
          · exact h1
          · exfalso
            have hmem := findEntry_mem name des _ h1
            rcases rmPure_fix_mem env d des hnorm name _ hmem with
              hkeep | ⟨mm, ees, habs, _, _⟩
            · rw [hkeep] at hkname; cases hkname
            · cases habs
        constructor
        · intro n hn
          rw [lookupE_cons_some ses name p' _ hfs] at hn
          cases p' with
          | nil =>
            obtain rfl : FSNode.file m c = n := Option.some_inj.1 hn
            refine ⟨.file m c, ?_, ⟨rfl, rfl⟩⟩
            rw [lookupE_cons_some out name [] _ hout.2]
            simp [lookupPath]
          | cons q2 p2 => simp [lookupPath] at hn
        · intro hnone
          rw [lookupE_cons_some ses name p' _ hfs] at hnone
          cases p' with
          | nil => simp [lookupPath] at hnone
          | cons q2 p2 =>
            left
            rw [lookupE_cons_some out name _ _ hout.2]
            simp [lookupPath]
      | dir m es =>
        have hcase := htr.2.2 m es hfs
        have hnd0 : nodupE es = true := by
          have := nodupE_findEntry name ses _ hnd hfs
          simpa [nodupN] using this
        rcases hcase with ⟨hfd, des0', hc, hout⟩ | ⟨dm0, des0, des0', hfd, hc, hout⟩
        · constructor
          · intro n hn
            rw [lookupE_cons_some ses name p' _ hfs] at hn
            cases p' with
            | nil =>
              obtain rfl : FSNode.dir m es = n := Option.some_inj.1 hn
              refine ⟨.dir m des0', ?_, trivial⟩
              rw [lookupE_cons_some out name [] _ hout]
              simp [lookupPath]
            | cons q2 p2 =>
              rw [lookupPath_dir] at hn
              have hrec := ih es [] des0' (joinPath sD name) (joinPath d name)
                hc hnd0 (by simp [rmPure]) hfree' (by simp)
              obtain ⟨n', hn', hagree⟩ := hrec.1 n hn
              refine ⟨n', ?_, hagree⟩
              rw [lookupE_cons_some out name _ _ hout, lookupPath_dir]
              exact hn'
          · intro hnone
            rw [lookupE_cons_some ses name p' _ hfs] at hnone
            cases p' with
            | nil => cases hnone
            | cons q2 p2 =>
              rw [lookupPath_dir] at hnone
              have hrec := ih es [] des0' (joinPath sD name) (joinPath d name)
                hc hnd0 (by simp [rmPure]) hfree' (by simp)
              rcases hrec.2 hnone with hl | ⟨n', hn', hsh⟩
              · left
                rw [lookupE_cons_some out name _ _ hout, lookupPath_dir]
                exact hl
              · right
                refine ⟨n', ?_, ?_⟩
                · rw [lookupE_cons_some out name _ _ hout, lookupPath_dir]
                  exact hn'
                · rw [absAlong_cons]
                  exact hsh
        · have hnormdes0 : rmPure env (joinPath d name) des0 = des0 := by
            have hmem := findEntry_mem name des _ hfd
            rcases rmPure_fix_mem env d des hnorm name _ hmem with
              hkeep | ⟨mm, ees, habs, hfix0, _⟩
            · rw [hkeep] at hkname; cases hkname
            · obtain ⟨h1, h2⟩ := FSNode.dir.injEq .. ▸ habs
              rw [h2]
              exact hfix0
          constructor
          · intro n hn
            rw [lookupE_cons_some ses name p' _ hfs] at hn
            cases p' with
            | nil =>
              obtain rfl : FSNode.dir m es = n := Option.some_inj.1 hn
              refine ⟨.dir dm0 des0', ?_, trivial⟩
              rw [lookupE_cons_some out name [] _ hout]
              simp [lookupPath]
            | cons q2 p2 =>
              rw [lookupPath_dir] at hn
              have hrec := ih es des0 des0' (joinPath sD name) (joinPath d name)
                hc hnd0 hnormdes0 hfree' (by simp)
              obtain ⟨n', hn', hagree⟩ := hrec.1 n hn
              refine ⟨n', ?_, hagree⟩
              rw [lookupE_cons_some out name _ _ hout, lookupPath_dir]
              exact hn'
          · intro hnone
            rw [lookupE_cons_some ses name p' _ hfs] at hnone
            cases p' with
            | nil => cases hnone
            | cons q2 p2 =>
              rw [lookupPath_dir] at hnone
              have hrec := ih es des0 des0' (joinPath sD name) (joinPath d name)
                hc hnd0 hnormdes0 hfree' (by simp)
              rcases hrec.2 hnone with hl | ⟨n', hn', hsh⟩
              · left
                rw [lookupE_cons_some out name _ _ hout, lookupPath_dir]
                exact hl
              · right
                refine ⟨n', ?_, ?_⟩
                · rw [lookupE_cons_some out name _ _ hout, lookupPath_dir]
                  exact hn'
                · rw [absAlong_cons]
                  exact hsh

theorem removeFiles_noFaults (env : Env) (d : String) (m : Nat)
    (es : List (String × FSNode)) :
    removeFiles env noFaults d (.dir m es) = (.dir m (rmPure env d es), none) := by
  simp [removeFiles, noFaults_rdFail, removeEntries_noFaults]

theorem copyFiles_dir_dir (env : Env) (fl : Faults) (sD dD : String) (m : Nat)
    (es : List (String × FSNode)) (dm : Nat) (des : List (String × FSNode)) :
    copyFiles env fl sD dD (.dir m es) (.dir dm des) =
      if fl.rdFail sD = true then (.dir dm des, some sD)
      else (.dir dm (copyEntries env fl sD dD es des).1,
        (copyEntries env fl sD dD es des).2) := by
  cases hr : fl.rdFail sD <;> simp [copyFiles, hr]

mutual

/-- Modelled from the spec: a tree "minus keep-list entries" — every
subtree whose destination path matches the keep-list pruned away. Used
only to state testable property 1 for comparison with the code. -/
def minusKeepN (env : Env) : String → FSNode → FSNode
  | _, .file m c => .file m c
  | dp, .dir m es => .dir m (minusKeepE env dp es)

/-- Modelled from the spec: prune keep-list matches from an entry
list. -/
def minusKeepE (env : Env) : String → List (String × FSNode) →
    List (String × FSNode)
  | _, [] => []
  | dp, (name, node) :: rest =>
    if isKeepFile env (joinPath dp name) then minusKeepE env dp rest
    else (name, minusKeepN env (joinPath dp name) node) :: minusKeepE env dp rest

end

/-- C8 counterexample: with keep list `["d/x"]`, a destination holding
`d/x` and a source without `d`, the successful mirror leaves the
sheltering directory `d` (with its old mode and the protected file) in
the destination; the result is not byte-identical to the source tree
minus keep-list entries — the pruned trees still differ at `d`. -/
theorem mirror_result_not_source_minus_keep :
    copy ⟨some "/", "/src", "/dst", ["d/x"]⟩ noFaults true
        ⟨some (.dir 493 [("a.txt", .file 420 "hi")]),
          some (.dir 493 [("d", .dir 448 [("x", .file 420 "k")])])⟩ =
      (true, ⟨some (.dir 493 [("a.txt", .file 420 "hi")]),
        some (.dir 493 [("d", .dir 448 [("x", .file 420 "k")]),
          ("a.txt", .file 420 "hi")])⟩) ∧
    minusKeepN ⟨some "/", "/src", "/dst", ["d/x"]⟩ "/dst"
        (.dir 493 [("d", .dir 448 [("x", .file 420 "k")]),
          ("a.txt", .file 420 "hi")]) ≠
      minusKeepN ⟨some "/", "/src", "/dst", ["d/x"]⟩ "/dst"
        (.dir 493 [("a.txt", .file 420 "hi")]) := by
  constructor
  · decide
  · decide

/-- C8 amended: a successful fault-free mirror is idempotent — a second
run with the unchanged source succeeds and reproduces the identical
destination tree — and the destination agrees with the source at every
path free of keep-list matches: source files land byte- and
mode-identical, source directories are present as directories (a
pre-existing directory keeps its own mode), and the only extra entries
at free paths are directories sheltering a protected node, which
survive with their prior contents. -/
theorem mirror_idempotent_modulo_sheltering (env : Env) (S D D1 : FSNode)
    (hnd : nodupN S = true)
    (h1 : copy env noFaults true ⟨some S, some D⟩ = (true, ⟨some S, some D1⟩)) :
    copy env noFaults true ⟨some S, some D1⟩ = (true, ⟨some S, some D1⟩) ∧
    (∀ (p : List String) (n : FSNode), freeB env env.dstDir p = true →
      lookupPath S p = some n →
      ∃ n', lookupPath D1 p = some n' ∧ topAgree n n') ∧
    (∀ (p : List String), freeB env env.dstDir p = true →
      lookupPath S p = none →
      lookupPath D1 p = none ∨
        ∃ n', lookupPath D1 p = some n' ∧
          shelters env (absAlong env.dstDir p) n' = true) := by
  cases D with
  | file dm dc => simp [copy, removeFiles] at h1
  | dir dm des =>
    cases S with
    | file sm sc =>
      rw [show copy env noFaults true ⟨some (.file sm sc), some (.dir dm des)⟩ =
          ((copyFiles env noFaults env.srcDir env.dstDir (.file sm sc)
              (.dir dm (rmPure env env.dstDir des))).2.isNone,
            ⟨some (.file sm sc), some (copyFiles env noFaults env.srcDir env.dstDir
              (.file sm sc) (.dir dm (rmPure env env.dstDir des))).1⟩) by
          simp [copy, removeFiles_noFaults]] at h1
      simp [copyFiles] at h1
    | dir sm ses =>
      rw [show copy env noFaults true ⟨some (.dir sm ses), some (.dir dm des)⟩ =
          ((copyEntries env noFaults env.srcDir env.dstDir ses
              (rmPure env env.dstDir des)).2.isNone,
            ⟨some (.dir sm ses), some (.dir dm (copyEntries env noFaults env.srcDir
              env.dstDir ses (rmPure env env.dstDir des)).1)⟩) by
          simp [copy, removeFiles_noFaults, copyFiles_dir_dir, noFaults_rdFail]] at h1
      obtain ⟨hfst, hsnd⟩ := Prod.mk.injEq .. ▸ h1
      have hcpE2 : (copyEntries env noFaults env.srcDir env.dstDir ses
          (rmPure env env.dstDir des)).2 = none := by
        cases hq : (copyEntries env noFaults env.srcDir env.dstDir ses
            (rmPure env env.dstDir des)).2 with
        | none => rfl
        | some e => rw [hq] at hfst; simp at hfst
      have hD1 : D1 = .dir dm (copyEntries env noFaults env.srcDir env.dstDir ses
          (rmPure env env.dstDir des)).1 := by
        have := (World.mk.injEq .. ▸ hsnd).2
        exact (Option.some_inj.1 this).symm
      set CP1 := (copyEntries env noFaults env.srcDir env.dstDir ses
        (rmPure env env.dstDir des)).1 with hCP1
      have hcp : cpPure env env.srcDir env.dstDir ses (rmPure env env.dstDir des) =
          some CP1 :=
        (copyEntries_noFaults env ses env.srcDir env.dstDir
          (rmPure env env.dstDir des)).2 hcpE2
      have hndes : nodupE ses = true := by simpa [nodupN] using hnd
      have hnormR : rmPure env env.dstDir (rmPure env env.dstDir des) =
          rmPure env env.dstDir des := rmPure_idem env des env.dstDir
      have hrm1 : rmPure env env.dstDir CP1 = rmPure env env.dstDir des := by
        have := cpPure_preserves_rmPure env ses env.srcDir env.dstDir
          (rmPure env env.dstDir des) CP1 hcp
        rw [this, hnormR]
      refine ⟨?_, ?_, ?_⟩
      · rw [hD1]
        rw [show copy env noFaults true ⟨some (.dir sm ses), some (.dir dm CP1)⟩ =
            ((copyEntries env noFaults env.srcDir env.dstDir ses
                (rmPure env env.dstDir CP1)).2.isNone,
              ⟨some (.dir sm ses), some (.dir dm (copyEntries env noFaults env.srcDir
                env.dstDir ses (rmPure env env.dstDir CP1)).1)⟩) by
            simp [copy, removeFiles_noFaults, copyFiles_dir_dir, noFaults_rdFail]]
        rw [hrm1]
        have heq := (copyEntries_noFaults env ses env.srcDir env.dstDir
          (rmPure env env.dstDir des)).1 CP1 hcp
        rw [heq]
        simp
      · intro p n hfree hlk
        cases p with
        | nil =>
          obtain rfl : FSNode.dir sm ses = n := Option.some_inj.1 hlk
          exact ⟨D1, by simp [lookupPath], by rw [hD1]; trivial⟩
        | cons q p' =>
          rw [lookupPath_dir] at hlk
          have := (cpPure_lookup env (q :: p') ses (rmPure env env.dstDir des) CP1
            env.srcDir env.dstDir hcp hndes hnormR hfree (by simp)).1 n hlk
          obtain ⟨n', hn', hagree⟩ := this
          refine ⟨n', ?_, hagree⟩
          rw [hD1, lookupPath_dir]
          exact hn'
      · intro p hfree hlk
        cases p with
        | nil => simp [lookupPath] at hlk
        | cons q p' =>
          rw [lookupPath_dir] at hlk
          have := (cpPure_lookup env (q :: p') ses (rmPure env env.dstDir des) CP1
            env.srcDir env.dstDir hcp hndes hnormR hfree (by simp)).2 hlk
          rcases this with hl | ⟨n', hn', hsh⟩
          · left
            rw [hD1, lookupPath_dir]
            exact hl
          · right
            refine ⟨n', ?_, hsh⟩
            rw [hD1, lookupPath_dir]
            exact hn'

/-- C8 amended witness: the spec's full scenario run a second time
reproduces the same destination, and `a.txt` lands byte- and
mode-identical at its free path. -/
theorem mirror_idempotent_modulo_sheltering_witness :
    copy ⟨some "/", "/src", "/dst", ["keep.txt"]⟩ noFaults true
        ⟨some (.dir 493 [("a.txt", .file 420 "hi")]),
          some (.dir 493 [("keep.txt", .file 420 "k"), ("a.txt", .file 420 "hi")])⟩ =
      (true, ⟨some (.dir 493 [("a.txt", .file 420 "hi")]),
        some (.dir 493 [("keep.txt", .file 420 "k"), ("a.txt", .file 420 "hi")])⟩) ∧
    (∃ n', lookupPath (.dir 493 [("keep.txt", .file 420 "k"),
        ("a.txt", .file 420 "hi")]) ["a.txt"] = some n' ∧
      topAgree (.file 420 "hi") n') :=
  ⟨(mirror_idempotent_modulo_sheltering ⟨some "/", "/src", "/dst", ["keep.txt"]⟩
      (.dir 493 [("a.txt", .file 420 "hi")])
      (.dir 493 [("old", .file 420 "x"), ("keep.txt", .file 420 "k")])
      (.dir 493 [("keep.txt", .file 420 "k"), ("a.txt", .file 420 "hi")])
      (by decide) (by decide)).1,
    (mirror_idempotent_modulo_sheltering ⟨some "/", "/src", "/dst", ["keep.txt"]⟩
      (.dir 493 [("a.txt", .file 420 "hi")])
      (.dir 493 [("old", .file 420 "x"), ("keep.txt", .file 420 "k")])
      (.dir 493 [("keep.txt", .file 420 "k"), ("a.txt", .file 420 "hi")])
      (by decide) (by decide)).2.1 ["a.txt"] (.file 420 "hi") (by decide) (by decide)⟩

example : cleanPath "/a/b/../c" = "/a/c" := by decide
example : cleanPath "" = "." := by decide
example : cleanPath "/.." = "/" := by decide
example : cleanPath "a/../../b" = "../b" := by decide
example : joinPath "/dst" "k.txt" = "/dst/k.txt" := by decide
example : goAbs (some "/w") "a" = some "/w/a" := by decide
example : goAbs none "a" = none := by decide
example :
    isKeepFile ⟨some "/", "/src", "/dst", ["keep.txt"]⟩ "/dst/keep.txt" = true := by decide
example :
    isKeepFile ⟨some "/", "/src", "/dst", ["d"]⟩ "/dst/d/child" = false := by decide
example : parseKeepFiles "a, ,b" = ["a", "", "b"] := by decide

example :
    copy ⟨some "/", "/src", "/dst", ["keep.txt"]⟩ noFaults true
      ⟨some (.dir 493 [("a.txt", .file 420 "hi"),
          ("sub", .dir 493 [("b.txt", .file 420 "yo")])]),
        some (.dir 448 [("old.txt", .file 420 "x"), ("keep.txt", .file 420 "k")])⟩ =
    (true,
      ⟨some (.dir 493 [("a.txt", .file 420 "hi"),
          ("sub", .dir 493 [("b.txt", .file 420 "yo")])]),
        some (.dir 448 [("keep.txt", .file 420 "k"), ("a.txt", .file 420 "hi"),
          ("sub", .dir 493 [("b.txt", .file 420 "yo")])])⟩) := by decide

end Releaser
